import Mathlib

/-!
# Verification of the Math-solver extraction-and-dispatch pipeline

A shallow embedding of the core pipeline of the repository
(`nlp_processor.py`, `math_solver.py`): text normalisation, word-problem
detection, number extraction, expression synthesis and solver dispatch.
Strings are modelled as `List Char`, Python floats as `ℚ` (all arithmetic
performed by the embedded code is exact on the rationals involved), and
the regular expressions of the source are implemented as explicit
left-to-right scanners with the same match semantics.
-/

set_option maxRecDepth 100000

unseal Rat.add Rat.mul Rat.inv Rat.sub

namespace MathSolver

/-! ## Basic character classes (Python semantics, ASCII fragment) -/

/-- Whitespace characters recognised by Python's `str.split`, `str.strip`
and the regex class `\s` (ASCII fragment). -/
def pySpace (c : Char) : Bool :=
  c = ' ' || c = '\t' || c = '\n' || c = '\x0d' || c = '\x0b' || c = '\x0c'

/-- The regex class `\d` (ASCII digits). -/
def isDigitCh (c : Char) : Bool := '0' ≤ c && c ≤ '9'

/-- The regex class `[a-zA-Z]`. -/
def isAsciiAlpha (c : Char) : Bool := ('a' ≤ c && c ≤ 'z') || ('A' ≤ c && c ≤ 'Z')

/-- The regex class `\w` (word characters): ASCII letters, digits and
underscore; characters beyond ASCII are treated as word characters
(approximating Python's unicode `\w`, which covers all letters/digits). -/
def isWordCh (c : Char) : Bool :=
  isAsciiAlpha c || isDigitCh c || c = '_' || decide (127 < c.toNat)

/-- Python `str.lower` (ASCII fragment, as provided by `Char.toLower`). -/
def pyLower (l : List Char) : List Char := l.map Char.toLower

/-- Python's `needle in haystack` substring test. -/
def hasSub (needle : List Char) : List Char → Bool
  | [] => needle.isEmpty
  | c :: t => needle.isPrefixOf (c :: t) || hasSub needle t

/-- Python's `text.split()`: split on runs of whitespace, dropping empty
pieces.  `acc` holds the current (reversed) word. -/
def splitWsGo (acc : List Char) : List Char → List (List Char)
  | [] => if acc.isEmpty then [] else [acc.reverse]
  | c :: r =>
    if pySpace c then
      if acc.isEmpty then splitWsGo [] r else acc.reverse :: splitWsGo [] r
    else splitWsGo (c :: acc) r

def splitWs (l : List Char) : List (List Char) := splitWsGo [] l

/-! ## Word-Problem Detector (`NLPProcessor.is_word_problem`) -/

/-- The narrative indicator substrings of `is_word_problem`, in source order. -/
def narrativeIndicators : List (List Char) :=
  [ "a car".data, "a person".data, "john".data, "mary".data, "the train".data,
    "the bus".data, "a store".data, "a student".data,
    "a teacher".data, "a worker".data, "sarah".data, "mike".data, "a farmer".data,
    "a builder".data, "the company".data,
    "if".data, "when".data, "how much".data, "how many".data, "what is".data,
    "find".data, "calculate".data, "determine".data,
    "how old".data, "how long".data, "how far".data, "how fast".data,
    "how tall".data, "how wide".data,
    "years old".data, "miles".data, "hours".data, "minutes".data, "seconds".data,
    "days".data, "weeks".data, "months".data,
    "feet".data, "meters".data, "inches".data, "centimeters".data,
    "kilometers".data, "yards".data,
    "dollars".data, "cents".data, "price".data, "cost".data, "buy".data,
    "sell".data, "profit".data, "discount".data, "sale".data,
    "budget".data, "spend".data, "earn".data, "save".data, "total cost".data,
    "change".data,
    "speed".data, "rate".data, "time".data, "distance".data, "travels".data,
    "drives".data, "walks".data, "runs".data,
    "acceleration".data, "velocity".data, "moves".data,
    "rectangle".data, "square".data, "circle".data, "triangle".data,
    "area".data, "perimeter".data, "volume".data,
    "length".data, "width".data, "height".data, "radius".data, "diameter".data,
    "population".data, "temperature".data, "weight".data, "shares".data,
    "distributes".data, "splits".data,
    "mixture".data, "recipe".data, "ingredients".data, "concentration".data,
    "percentage".data ]

/-- The bare math symbols of `is_word_problem` (tested on the raw text). -/
def mathSymbols : List (List Char) :=
  [ "+".data, "-".data, "*".data, "/".data, "=".data, "^".data, "x".data, "y".data ]

/-- `is_word_problem`: narrative indicator present in the lowercased text,
and not (a bare math symbol in the raw text while the word count is
below 5). -/
def is_word_problem (text : List Char) : Bool :=
  let hasNarrative := narrativeIndicators.any (fun ind => hasSub ind (pyLower text))
  let hasMathSymbols := mathSymbols.any (fun s => hasSub s text)
  hasNarrative && !(hasMathSymbols && decide ((splitWs text).length < 5))

/-! ## Number Extractor (`NLPProcessor._extract_numbers`)

The four extraction phases of `_extract_numbers`, each an explicit
scanner with the same left-to-right, leftmost-longest match semantics as
the regular expressions of the source, followed by the order-preserving
deduplication loop. -/

/-- Numeric value of a digit string. -/
def natOfDigits (l : List Char) : ℕ :=
  l.foldl (fun acc c => 10 * acc + (c.toNat - '0'.toNat)) 0

/-- Value of `digits[.digits]` as an exact rational (`float(...)` in the
source; exact for the decimal literals the pipeline manipulates). -/
def decimalVal (intPart fracPart : List Char) : ℚ :=
  (natOfDigits intPart : ℚ) + (natOfDigits fracPart : ℚ) / (10 : ℚ) ^ fracPart.length

/-- Attempt to match the regex `\d+(?:\.\d+)?\s*%` at the head of `l`
(equivalently its capturing variant `(\d+(?:\.\d+)?)\s*%` of
`re.findall`).  Returns the numeric value of the digit part and the text
after the match.  Backtracking cannot rescue a failed attempt (shorter
digit runs put a digit where `%`, `.` or `\s` is required), so maximal
munch is faithful. -/
def pctTry (l : List Char) : Option (ℚ × List Char) :=
  let ds := l.takeWhile isDigitCh
  if ds.isEmpty then none
  else
    let r1 := l.drop ds.length
    let fr :=
      match r1 with
      | '.' :: r' =>
        let fs := r'.takeWhile isDigitCh
        if fs.isEmpty then ([], r1) else (fs, r'.drop fs.length)
      | _ => ([], r1)
    match fr.2.dropWhile pySpace with
    | '%' :: rest => some (decimalVal ds fr.1, rest)
    | _ => none

/-- One pass of `re.findall(r'(\d+(?:\.\d+)?)\s*%', text)` together with
`re.sub(r'\d+(?:\.\d+)?\s*%', ' ', text)` (the two patterns match the
same substrings): values of all matches, and the text with every match
replaced by a single space. -/
def pctGo : ℕ → List Char → List ℚ × List Char
  | _, [] => ([], [])
  | 0, l => ([], l)
  | fuel + 1, c :: r =>
    match pctTry (c :: r) with
    | some (v, rest) =>
      let p := pctGo fuel rest
      (v :: p.1, ' ' :: p.2)
    | none =>
      let p := pctGo fuel r
      (p.1, c :: p.2)

def pctScan (l : List Char) : List ℚ × List Char := pctGo l.length l

/-- Attempt to match `(?<!\d)(\d+)/(\d+)(?!\d)` at the head of `l`
(the caller guarantees the look-behind).  Returns numerator, denominator
and the rest.  The look-ahead `(?!\d)` is automatic for the maximal
denominator run. -/
def fracTry (l : List Char) : Option (ℕ × ℕ × List Char) :=
  let ds := l.takeWhile isDigitCh
  if ds.isEmpty then none
  else
    match l.drop ds.length with
    | c :: r2 =>
      if c = '/' then
        let es := r2.takeWhile isDigitCh
        if es.isEmpty then none
        else some (natOfDigits ds, natOfDigits es, r2.drop es.length)
      else none
    | [] => none

/-- One pass of the fraction regex `(?<!\d)(\d+)/(\d+)(?!\d)`: all
(numerator, denominator) matches and the text with every match replaced
by a single space.  `prevDigit` tracks the look-behind `(?<!\d)`. -/
def fracGo : ℕ → Bool → List Char → List (ℕ × ℕ) × List Char
  | _, _, [] => ([], [])
  | 0, _, l => ([], l)
  | fuel + 1, prevDigit, c :: r =>
    if prevDigit then
      let p := fracGo fuel (isDigitCh c) r
      (p.1, c :: p.2)
    else
      match fracTry (c :: r) with
      | some (n, d, rest) =>
        let p := fracGo fuel true rest
        ((n, d) :: p.1, ' ' :: p.2)
      | none =>
        let p := fracGo fuel (isDigitCh c) r
        (p.1, c :: p.2)

def fracScan (l : List Char) : List (ℕ × ℕ) × List Char := fracGo l.length false l

/-- `re.findall(r'\d+(?:\.\d+)?', text)`: the values of all plain digit
tokens (with optional decimal part), left to right. -/
def digitGo : ℕ → List Char → List ℚ
  | _, [] => []
  | 0, _ => []
  | fuel + 1, c :: r =>
    let ds := (c :: r).takeWhile isDigitCh
    if ds.isEmpty then digitGo fuel r
    else
      let r1 := (c :: r).drop ds.length
      match r1 with
      | '.' :: r2 =>
        let fs := r2.takeWhile isDigitCh
        if fs.isEmpty then decimalVal ds [] :: digitGo fuel r1
        else decimalVal ds fs :: digitGo fuel (r2.drop fs.length)
      | _ => decimalVal ds [] :: digitGo fuel r1

def digitScan (l : List Char) : List ℚ := digitGo l.length l

/-- The `number_words` table of the processor. -/
def numberWords : List (List Char × ℚ) :=
  [ ("zero".data, 0), ("one".data, 1), ("two".data, 2), ("three".data, 3),
    ("four".data, 4), ("five".data, 5), ("six".data, 6), ("seven".data, 7),
    ("eight".data, 8), ("nine".data, 9), ("ten".data, 10),
    ("eleven".data, 11), ("twelve".data, 12), ("thirteen".data, 13),
    ("fourteen".data, 14), ("fifteen".data, 15), ("sixteen".data, 16),
    ("seventeen".data, 17), ("eighteen".data, 18), ("nineteen".data, 19),
    ("twenty".data, 20), ("thirty".data, 30), ("forty".data, 40),
    ("fifty".data, 50), ("sixty".data, 60), ("seventy".data, 70),
    ("eighty".data, 80), ("ninety".data, 90), ("hundred".data, 100),
    ("thousand".data, 1000), ("million".data, 1000000) ]

/-- `re.sub(r'[^\w]', '', word.lower())` followed by the dictionary
lookup `word in self.number_words`. -/
def normWord (w : List Char) : List Char :=
  (w.map Char.toLower).filter isWordCh

def lookupNW (w : List Char) : Option ℚ :=
  (numberWords.find? (fun p => p.1 == w)).map (·.2)

/-- The spelled-number loop of `_extract_numbers` on the (normalised)
word list: emit each table word's value, compounding with the next word
exactly when it is also a table word and either the current value is
`≥ 20` with the next `< 10`, or the current value is exactly `100` with
the next `< 100` (in which case the next word is consumed). -/
def wordScan : List (List Char) → List ℚ
  | [] => []
  | [w] =>
    match lookupNW w with
    | some v => [v]
    | none => []
  | w1 :: w2 :: r =>
    match lookupNW w1 with
    | none => wordScan (w2 :: r)
    | some v1 =>
      match lookupNW w2 with
      | none => v1 :: wordScan (w2 :: r)
      | some v2 =>
        if (20 ≤ v1 ∧ v2 < 10) ∨ (v1 = 100 ∧ v2 < 100) then
          (v1 + v2) :: wordScan r
        else
          v1 :: wordScan (w2 :: r)

/-- The duplicate-removal loop of `_extract_numbers` (`seen` set, first
occurrence kept). -/
def dedupFirstGo (seen : List ℚ) : List ℚ → List ℚ
  | [] => []
  | x :: r =>
    if x ∈ seen then dedupFirstGo seen r
    else x :: dedupFirstGo (x :: seen) r

def dedupFirst (l : List ℚ) : List ℚ := dedupFirstGo [] l

/-- Fraction values: `float(num)/float(den)` for every fraction match
whose denominator is nonzero (`int(den) != 0`). -/
def fracVals (l : List Char) : List ℚ :=
  ((fracScan l).1.filter (fun p => p.2 ≠ 0)).map (fun p => (p.1 : ℚ) / (p.2 : ℚ))

/-- The working copy of the text: percentage matches blanked first, then
fraction matches blanked in the result (lines 130–131 of the source). -/
def workingCopy (l : List Char) : List Char :=
  (fracScan (pctScan l).2).2

/-- The word-number phase applied to `text.split()`. -/
def wordVals (l : List Char) : List ℚ :=
  wordScan ((splitWs l).map normWord)

/-- The concatenation of the four phases in source order: percentages,
fractions, plain digits found in the working copy, spelled words. -/
def rawTokens (l : List Char) : List ℚ :=
  ((pctScan l).1.map (fun v => v / 100)) ++ fracVals l
    ++ digitScan (workingCopy l) ++ wordVals l

/-- `_extract_numbers`: the four phases, deduplicated by exact value
preserving first occurrence. -/
def extract_numbers (l : List Char) : List ℚ :=
  dedupFirst (rawTokens l)

/-! ## Text Normalizer (`MathSolver._preprocess_input`)

The transforms of `_preprocess_input`, in source order: strip, printable
filter, leading command-word removal, symbol substitution, implicit
multiplication insertion, whitespace collapsing. -/

/-- Python `str.strip()`: remove leading and trailing whitespace. -/
def pyStrip (l : List Char) : List Char :=
  (((l.dropWhile pySpace).reverse.dropWhile pySpace)).reverse

/-- A character kept by `char.isprintable() or char.isspace()`: anything
that is not a non-whitespace control character (models Python
printability on the character ranges the pipeline uses; all substituted
symbols `÷ × π ∞ √` are printable). -/
def keepChar (c : Char) : Bool :=
  (32 ≤ c.toNat && c.toNat ≠ 127) || pySpace c

/-- `re.sub(r'^<word>\s+', '', text, flags=re.IGNORECASE)`: if the
lowercased text starts with `pat` followed by at least one whitespace
character, remove the prefix and that whitespace run (the anchored
pattern can match only once). -/
def stripCmd (pat : List Char) (t : List Char) : List Char :=
  if pyLower (t.take pat.length) = pat then
    match t.drop pat.length with
    | c :: r => if pySpace c then r.dropWhile pySpace else t
    | [] => t
  else t

/-- The four command-word removals, applied in source order. -/
def stripCmds (t : List Char) : List Char :=
  stripCmd "solve".data (stripCmd "find".data
    (stripCmd "what is".data (stripCmd "calculate".data t)))

/-- `text.replace("^", "**")`. -/
def replPow : List Char → List Char
  | [] => []
  | c :: r => if c = '^' then '*' :: '*' :: replPow r else c :: replPow r

/-- `text.replace("÷", "/")`. -/
def replDiv : List Char → List Char
  | [] => []
  | c :: r => if c = '÷' then '/' :: replDiv r else c :: replDiv r

/-- `text.replace("×", "*")`. -/
def replTimes : List Char → List Char
  | [] => []
  | c :: r => if c = '×' then '*' :: replTimes r else c :: replTimes r

/-- `text.replace("π", "pi")`. -/
def replPi : List Char → List Char
  | [] => []
  | c :: r => if c = 'π' then 'p' :: 'i' :: replPi r else c :: replPi r

/-- `text.replace("∞", "oo")`. -/
def replInf : List Char → List Char
  | [] => []
  | c :: r => if c = '∞' then 'o' :: 'o' :: replInf r else c :: replInf r

/-- Attempt to match `√\(([^)]+)\)` at the head: `√(`, then a nonempty
run of non-`)` characters, then `)`.  Returns the body and the rest. -/
def sqrtTry : List Char → Option (List Char × List Char)
  | c1 :: c2 :: r =>
    if c1 = '√' ∧ c2 = '(' then
      let body := r.takeWhile (· ≠ ')')
      if body.isEmpty then none
      else
        match r.drop body.length with
        | c3 :: rest => if c3 = ')' then some (body, rest) else none
        | [] => none
    else none
  | _ => none

/-- `re.sub(r'√\(([^)]+)\)', r'sqrt(\1)', text)`: replace each match by
`sqrt(body)`; the replacement text is not rescanned. -/
def sqrtGo : ℕ → List Char → List Char
  | _, [] => []
  | 0, l => l
  | fuel + 1, c :: r =>
    match sqrtTry (c :: r) with
    | some (body, rest) =>
      's' :: 'q' :: 'r' :: 't' :: '(' :: (body ++ ')' :: sqrtGo fuel rest)
    | none => c :: sqrtGo fuel r

def sqrtRepl (l : List Char) : List Char := sqrtGo l.length l

/-- The common shape of the three implicit-multiplication rewrites
`re.sub(r'(X)(Y)', r'\1*\2', text)`: insert `*` between an `X`-character
immediately followed by a `Y`-character (non-overlapping matches, the
scan resumes after the second character). -/
def insStar (p q : Char → Bool) : List Char → List Char
  | [] => []
  | [c] => [c]
  | a :: b :: r =>
    if p a && q b then a :: '*' :: b :: insStar p q r
    else a :: insStar p q (b :: r)

/-- `re.sub(r'(\d)([a-zA-Z])', r'\1*\2', text)`. -/
def digitLetter (l : List Char) : List Char := insStar isDigitCh isAsciiAlpha l

/-- `re.sub(r'([a-zA-Z])(\d)', r'\1*\2', text)`. -/
def letterDigit (l : List Char) : List Char := insStar isAsciiAlpha isDigitCh l

/-- `re.sub(r'\)\(', ')*(', text)` (the replacement `)*(` is the matched
pair with `*` inserted). -/
def parenProd (l : List Char) : List Char := insStar (· = ')') (· = '(') l

/-- The list of adjacent character pairs of a string. -/
def adjPairs : List Char → List (Char × Char)
  | [] => []
  | [_] => []
  | a :: b :: r => (a, b) :: adjPairs (b :: r)

/-- Whether some adjacent pair satisfies `p` on the left and `q` on the
right (e.g. a digit immediately followed by a letter). -/
def badAdj (p q : Char → Bool) (l : List Char) : Bool :=
  (adjPairs l).any (fun pr => p pr.1 && q pr.2)

/-- `" ".join(text.split())`: collapse whitespace runs to single spaces
and trim. -/
def collapseWs (l : List Char) : List Char :=
  List.intercalate [' '] (splitWs l)

/-- `_preprocess_input`, all stages in source order. -/
def preprocess (l : List Char) : List Char :=
  collapseWs (parenProd (letterDigit (digitLetter (sqrtRepl (replInf (replPi
    (replTimes (replDiv (replPow (stripCmds ((pyStrip l).filter keepChar)))))))))))

/-! ## Solver Dispatcher (`MathSolver.solve_problem` routing)

The routing decision of `solve_problem`: which branch handles a cleaned
input, as a function of the cleaned text and the declared problem type. -/

/-- The declared problem type (the `problem_type` string argument of
`solve_problem`; `other` stands for any string equal to none of the
compared literals). -/
inductive ProblemType where
  | autoDetect | algebra | calculus | directEquation | other
deriving DecidableEq

/-- The branch chosen by `solve_problem`. -/
inductive Branch where
  | evaluate | algebraic | derivative | integral | system | equation | general
deriving DecidableEq

/-- `re.search(r'\b[a-zA-Z]\b', text)`: a single ASCII letter delimited
by word boundaries.  `prev` is the character before the current
position (`none` at the start of the string). -/
def hasLoneLetter : Option Char → List Char → Bool
  | _, [] => false
  | prev, c :: r =>
    (isAsciiAlpha c
      && !(match prev with | some p => isWordCh p | none => false)
      && !(match r.head? with | some n => isWordCh n | none => false))
    || hasLoneLetter (some c) r

/-- The character class `[\d\+\-\*/\(\)\.\s]` of `_is_simple_calculation`. -/
def isCalcCh (c : Char) : Bool :=
  isDigitCh c || c = '+' || c = '-' || c = '*' || c = '/' || c = '(' || c = ')'
    || c = '.' || pySpace c

/-- `_is_simple_calculation`: no `=`, no standalone letter, and the text
matches `^[\d\+\-\*/\(\)\.\s]+$`. -/
def is_simple_calculation (t : List Char) : Bool :=
  !t.contains '=' && !hasLoneLetter none t && !t.isEmpty && t.all isCalcCh

/-- `_detect_problem_type` (applied when the declared type is
`Auto-detect`). -/
def detect_problem_type (t : List Char) : ProblemType :=
  let lo := pyLower t
  if ["derivative".data, "differentiate".data, "d/dx".data, "derive".data].any
      (fun k => hasSub k lo) then .calculus
  else if ["integrate".data, "integral".data, "∫".data, "antiderivative".data].any
      (fun k => hasSub k lo) then .calculus
  else if ["solve".data, "find x".data, "find y".data].any (fun k => hasSub k lo) then .algebra
  else if t.contains '=' then .directEquation
  else .algebra

/-- Python `text.split(',')` (empty pieces kept). -/
def splitCommaGo (acc : List Char) : List Char → List (List Char)
  | [] => [acc.reverse]
  | c :: r => if c = ',' then acc.reverse :: splitCommaGo [] r else splitCommaGo (c :: acc) r

def splitComma (l : List Char) : List (List Char) := splitCommaGo [] l

/-- `_is_system_of_equations`: a comma, an `=`, and at least two
comma-separated segments containing `=`. -/
def is_system_of_equations (t : List Char) : Bool :=
  t.contains ',' && t.contains '='
    && 2 ≤ ((splitComma t).filter (fun seg => seg.contains '=')).length

/-- The effective problem type: the declared one, or the detected one
when the declared type is `Auto-detect`. -/
def effectiveType (t : List Char) (pt : ProblemType) : ProblemType :=
  if pt = .autoDetect then detect_problem_type t else pt

/-- The branch-selection chain of `solve_problem` (lines 27–43 of
`math_solver.py`), applied to the already-cleaned text. -/
def solveRoute (t : List Char) (pt : ProblemType) : Branch :=
  let ty := effectiveType t pt
  let lo := pyLower t
  if is_simple_calculation t then .evaluate
  else if ty = .algebra || hasSub "solve".data lo then .algebraic
  else if ty = .calculus || ["derivative".data, "differentiate".data, "d/dx".data].any
      (fun k => hasSub k lo) then .derivative
  else if ty = .calculus || ["integrate".data, "integral".data, "∫".data].any
      (fun k => hasSub k lo) then .integral
  else if is_system_of_equations t then .system
  else if ty = .directEquation || t.contains '=' then .equation
  else .general

/-! ## Expression Synthesizer handlers -/

/-- `_handle_system_word_problem`: on a text containing both `"sum"` and
`"difference"` with at least two numbers, the pair `(S, D)` of the
emitted system string `x + y = S, x - y = D`. -/
def handle_system_word_problem (t : List Char) (numbers : List ℚ) : Option (ℚ × ℚ) :=
  if 2 ≤ numbers.length then
    if hasSub "sum".data t && hasSub "difference".data t then
      let n0 := numbers.headI
      let n1 := numbers.tail.headI
      let sumVal := if n0 > n1 then n0 else n1
      let diffVal := if n0 > n1 then n1 else n0
      some (sumVal, diffVal)
    else none
  else none

/-- The system emitted by `_handle_complex_motion_problem`: either
`b + c = down, b - c = up` (boat) or `p + w = tail, p - w = head`
(aircraft). -/
inductive MotionSystem where
  | boat (down up : ℚ)
  | plane (tailw headw : ℚ)
deriving DecidableEq

/-- `_handle_complex_motion_problem`: needs at least three numbers
(distance, downstream/tailwind time, upstream/headwind time); the
divisions are guarded by Python truthiness (`if t1 and t2:`), i.e. both
times nonzero. -/
def handle_complex_motion_problem (t : List Char) (numbers : List ℚ) :
    Option MotionSystem :=
  if 3 ≤ numbers.length then
    if ["boat".data, "ship".data, "vessel".data].any (fun k => hasSub k t) then
      if hasSub "downstream".data t && hasSub "upstream".data t then
        let distance := numbers.headI
        let downTime := numbers.tail.headI
        let upTime := numbers.tail.tail.headI
        if downTime ≠ 0 ∧ upTime ≠ 0 then
          some (.boat (distance / downTime) (distance / upTime))
        else none
      else none
    else if ["plane".data, "airplane".data, "aircraft".data].any (fun k => hasSub k t) then
      if hasSub "tailwind".data t && hasSub "headwind".data t then
        let distance := numbers.headI
        let tailTime := numbers.tail.headI
        let headTime := numbers.tail.tail.headI
        if tailTime ≠ 0 ∧ headTime ≠ 0 then
          some (.plane (distance / tailTime) (distance / headTime))
        else none
      else none
    else none
  else none

/-! ## Error boundaries (`solve_problem` / `extract_math_from_text`)

Exceptions are modelled as `Except String`: the external CAS calls made
by the branch solvers may raise, which is represented by an arbitrary
branch behaviour `branches : Branch → Except String SolveResult`.  The
top-level `try/except` of `solve_problem` (lines 18–50) converts any
escaped exception into the structured error dictionary; the `try/except`
of `extract_math_from_text` (lines 71–113) converts any exception into
`None`. -/

/-- The result dictionary of `solve_problem`. -/
structure SolveResult where
  steps : List (List Char)
  answer : List Char
  error : Option (List Char)
deriving DecidableEq

/-- The error dictionary built by the `except` clause of
`solve_problem`. -/
def errorResult (e : List Char) : SolveResult :=
  { steps := ["Error processing problem: ".data ++ e],
    answer := "Could not solve the problem".data,
    error := some e }

/-- `solve_problem` with the branch bodies abstracted: route the cleaned
input, run the chosen branch (which may raise), and catch any exception
at the top level. -/
def solve_problem (branches : Branch → Except (List Char) SolveResult)
    (text : List Char) (pt : ProblemType) : Except (List Char) SolveResult :=
  match branches (solveRoute (preprocess text) pt) with
  | .ok r => .ok r
  | .error e => .ok (errorResult e)

/-- `extract_math_from_text` with the per-category handlers abstracted:
any exception raised while extracting is caught and turned into `None`. -/
def extract_math_from_text
    (handlers : List Char → List ℚ → Except (List Char) (Option (List Char)))
    (text : List Char) : Except (List Char) (Option (List Char)) :=
  match handlers (pyLower text) (extract_numbers (pyLower text)) with
  | .ok r => .ok r
  | .error _ => .ok none

/-! ## Lemmas: order-preserving deduplication -/

theorem dedupFirstGo_sublist (seen : List ℚ) (l : List ℚ) :
    (dedupFirstGo seen l).Sublist l := by
  induction l generalizing seen with
  | nil => simp [dedupFirstGo]
  | cons x r ih =>
    simp only [dedupFirstGo]
    split
    · exact (ih seen).cons x
    · exact (ih (x :: seen)).cons₂ x

theorem mem_dedupFirstGo (seen : List ℚ) (l : List ℚ) (v : ℚ) :
    v ∈ dedupFirstGo seen l ↔ v ∈ l ∧ v ∉ seen := by
  induction l generalizing seen with
  | nil => simp [dedupFirstGo]
  | cons x r ih =>
    simp only [dedupFirstGo]
    by_cases hx : x ∈ seen
    · rw [if_pos hx, ih, List.mem_cons]
      constructor
      · rintro ⟨hv, hns⟩
        exact ⟨Or.inr hv, hns⟩
      · rintro ⟨rfl | hv, hns⟩
        · exact absurd hx hns
        · exact ⟨hv, hns⟩
    · rw [if_neg hx]
      simp only [List.mem_cons, ih]
      constructor
      · rintro (rfl | ⟨hv, hns⟩)
        · exact ⟨Or.inl rfl, hx⟩
        · exact ⟨Or.inr hv, fun hc => hns (Or.inr hc)⟩
      · rintro ⟨hvx | hv, hns⟩
        · exact Or.inl hvx
        · by_cases hvx : v = x
          · exact Or.inl hvx
          · exact Or.inr ⟨hv, fun hc => hc.elim hvx hns⟩

theorem nodup_dedupFirstGo (seen : List ℚ) (l : List ℚ) :
    (dedupFirstGo seen l).Nodup := by
  induction l generalizing seen with
  | nil => simp [dedupFirstGo]
  | cons x r ih =>
    simp only [dedupFirstGo]
    split
    · exact ih seen
    · refine List.Nodup.cons (fun hc => ?_) (ih (x :: seen))
      exact ((mem_dedupFirstGo _ _ _).1 hc).2 (List.mem_cons_self _ _)

theorem dedupFirstGo_congr (seen₁ seen₂ : List ℚ) (l : List ℚ)
    (h : ∀ x : ℚ, x ∈ seen₁ ↔ x ∈ seen₂) :
    dedupFirstGo seen₁ l = dedupFirstGo seen₂ l := by
  induction l generalizing seen₁ seen₂ with
  | nil => simp [dedupFirstGo]
  | cons x r ih =>
    simp only [dedupFirstGo]
    by_cases hx : x ∈ seen₁
    · rw [if_pos hx, if_pos ((h x).1 hx)]
      exact ih _ _ h
    · rw [if_neg hx, if_neg (fun hc => hx ((h x).2 hc))]
      refine congrArg _ (ih _ _ fun y => ?_)
      simp only [List.mem_cons]
      exact or_congr Iff.rfl (h y)

theorem dedupFirstGo_cons_seen (s : ℚ) (seen : List ℚ) (l : List ℚ) :
    dedupFirstGo (s :: seen) l = dedupFirstGo seen (l.filter (· ≠ s)) := by
  induction l generalizing seen with
  | nil => simp [dedupFirstGo]
  | cons x r ih =>
    by_cases hxs : x = s
    · subst hxs
      rw [List.filter_cons_of_neg (by simp)]
      simp only [dedupFirstGo]
      rw [if_pos (List.mem_cons_self _ _)]
      exact ih seen
    · rw [List.filter_cons_of_pos (by simp [hxs])]
      simp only [dedupFirstGo]
      by_cases hx : x ∈ seen
      · rw [if_pos (List.mem_cons_of_mem _ hx), if_pos hx]
        exact ih seen
      · have hxss : x ∉ s :: seen := by
          simp only [List.mem_cons]
          rintro (rfl | hc)
          · exact hxs rfl
          · exact hx hc
        rw [if_neg hxss, if_neg hx]
        refine congrArg _ ?_
        rw [dedupFirstGo_congr (x :: s :: seen) (s :: x :: seen) r
          (by intro y; simp only [List.mem_cons]; tauto), ih (x :: seen)]

theorem dedupFirst_cons (x : ℚ) (r : List ℚ) :
    dedupFirst (x :: r) = x :: dedupFirst (r.filter (· ≠ x)) := by
  have h0 : dedupFirst (x :: r) = x :: dedupFirstGo [x] r := by
    simp [dedupFirst, dedupFirstGo]
  rw [h0, dedupFirstGo_cons_seen x [] r]
  rfl

/-! ## Claim theorems -/

/-- C1 (corrected).  The Number Extractor deduplicates by exact value
keeping the first occurrence, but the tokens are produced phase by phase
(percentages, then fractions, then plain digits of the working copy,
then spelled words), each phase in left-to-right text order — not in
global left-to-right order of first occurrence in the text: a spelled
word written earlier in the text follows every digit token.  The
theorem: the raw token list is exactly the four phases concatenated in
that order, and `extract_numbers` is the duplicate-free sublist of it
that keeps the first occurrence of every value (characterised by the
head-filter recursion of `dedupFirst`). -/
theorem claim_C1 :
    (∀ t : List Char,
      rawTokens t =
        ((pctScan t).1.map (fun v => v / 100)) ++ fracVals t
          ++ digitScan (workingCopy t) ++ wordVals t ∧
      extract_numbers t = dedupFirst (rawTokens t) ∧
      (extract_numbers t).Nodup ∧
      (extract_numbers t).Sublist (rawTokens t) ∧
      (∀ v : ℚ, v ∈ extract_numbers t ↔ v ∈ rawTokens t)) ∧
    (∀ (x : ℚ) (r : List ℚ),
      dedupFirst (x :: r) = x :: dedupFirst (r.filter (· ≠ x))) := by
  refine ⟨fun t => ⟨rfl, rfl, nodup_dedupFirstGo [] _, dedupFirstGo_sublist [] _, fun v => ?_⟩,
    dedupFirst_cons⟩
  rw [extract_numbers, dedupFirst, mem_dedupFirstGo]
  simp

/-- C1 counterexample: in `"five 3"` the value 5 is written before the
value 3, yet the extractor returns `[3, 5]` (digit phase before word
phase), not the text-order list `[5, 3]` required by the claim. -/
theorem claim_C1_cex :
    extract_numbers "five 3".data = [3, 5] ∧
    extract_numbers "five 3".data ≠ [5, 3] := by
  constructor
  · decide
  · decide

/-- C2 (corrected).  Compounding behaves exactly as claimed
(`"twenty five"` → `[25]`, `"fifty"` → `[50]`, and the add-and-consume
condition), but `"one hundred fifty"` yields `[1, 150]`, not `[150]`:
the word `"one"` fails the compounding test against `"hundred"`
(1 < 20 and 1 ≠ 100) and is emitted on its own before `"hundred fifty"`
compounds to 150. -/
theorem claim_C2 :
    extract_numbers "twenty five".data = [25] ∧
    extract_numbers "one hundred fifty".data = [1, 150] ∧
    extract_numbers "fifty".data = [50] ∧
    (∀ (w1 w2 : List Char) (r : List (List Char)) (v1 v2 : ℚ),
      lookupNW w1 = some v1 → lookupNW w2 = some v2 →
      wordScan (w1 :: w2 :: r) =
        if (20 ≤ v1 ∧ v2 < 10) ∨ (v1 = 100 ∧ v2 < 100) then
          (v1 + v2) :: wordScan r
        else v1 :: wordScan (w2 :: r)) := by
  refine ⟨by decide, by decide, by decide, fun w1 w2 r v1 v2 h1 h2 => ?_⟩
  simp only [wordScan, h1, h2]

/-- C2 witness: the compounding rule applied to the concrete words
`"twenty"` and `"five"`. -/
theorem claim_C2_witness :
    wordScan ["twenty".data, "five".data] =
      if ((20 : ℚ) ≤ 20 ∧ (5 : ℚ) < 10) ∨ ((20 : ℚ) = 100 ∧ (5 : ℚ) < 100) then
        (20 + 5 : ℚ) :: wordScan []
      else (20 : ℚ) :: wordScan ["five".data] :=
  claim_C2.2.2.2 "twenty".data "five".data [] 20 5 (by decide) (by decide)

/-- C2 counterexample: `"one hundred fifty"` does not extract to
`[150]`. -/
theorem claim_C2_cex :
    extract_numbers "one hundred fifty".data ≠ [150] := by
  decide

theorem hasSub_singleton (c : Char) (t : List Char) :
    hasSub [c] t = true ↔ c ∈ t := by
  induction t with
  | nil => simp [hasSub]
  | cons d r ih =>
    simp only [hasSub, List.isPrefixOf, Bool.or_eq_true, ih, List.mem_cons]
    constructor
    · rintro (h | h)
      · simp only [Bool.and_eq_true, beq_iff_eq] at h
        exact Or.inl h.1
      · exact Or.inr h
    · rintro (rfl | h)
      · exact Or.inl (by simp [List.isPrefixOf])
      · exact Or.inr h

/-- C6 (confirmed).  The detector returns true exactly when a narrative
indicator occurs in the lowercased text and it is not the case that both
a bare math symbol occurs in the raw text and the whitespace word count
is below 5; and the two concrete examples. -/
theorem claim_C6 :
    (∀ t : List Char,
      is_word_problem t = true ↔
        ((∃ ind ∈ narrativeIndicators, hasSub ind (pyLower t) = true) ∧
          ¬((∃ s ∈ mathSymbols, hasSub s t = true) ∧ (splitWs t).length < 5))) ∧
    is_word_problem "x + 5 = 10".data = false ∧
    is_word_problem "A car travels 60 miles in 2 hours. What is its speed?".data = true := by
  refine ⟨fun t => ?_, by decide, by decide⟩
  simp only [is_word_problem, Bool.and_eq_true, Bool.not_eq_true', Bool.and_eq_false_iff,
    List.any_eq_true, List.any_eq_false, decide_eq_true_eq, decide_eq_false_iff_not]
  constructor
  · rintro ⟨hn, hm⟩
    refine ⟨hn, fun hc => ?_⟩
    rcases hm with hm | hm
    · obtain ⟨s, hs, hss⟩ := hc.1
      exact absurd hss (by simpa using hm s hs)
    · exact hm hc.2
  · rintro ⟨hn, hm⟩
    refine ⟨hn, ?_⟩
    by_cases hs : ∃ s ∈ mathSymbols, hasSub s t = true
    · exact Or.inr fun hlen => hm ⟨hs, hlen⟩
    · exact Or.inl fun s hsm hc => hs ⟨s, hsm, hc⟩

/-- C10 (confirmed).  The math-symbol test runs case-sensitively on the
raw text while the indicator test runs on the lowercased text: a text
whose every character avoids the eight lowercase symbols (so possibly
containing `X` or `Y`) is a word problem whenever an indicator occurs,
regardless of word count; concretely, the 3-word text `"find X now"` is
a word problem while `"find x now"` is not. -/
theorem claim_C10 :
    is_word_problem "find X now".data = true ∧
    is_word_problem "find x now".data = false ∧
    (splitWs "find X now".data).length < 5 ∧
    (∀ t : List Char,
      (∃ ind ∈ narrativeIndicators, hasSub ind (pyLower t) = true) →
      (∀ c ∈ t, c ∉ ['+', '-', '*', '/', '=', '^', 'x', 'y']) →
      is_word_problem t = true) := by
  refine ⟨by decide, by decide, by decide, fun t hnarr hsym => ?_⟩
  have h1 : narrativeIndicators.any (fun ind => hasSub ind (pyLower t)) = true := by
    rw [List.any_eq_true]
    obtain ⟨ind, hi, hs⟩ := hnarr
    exact ⟨ind, hi, hs⟩
  have h2 : mathSymbols.any (fun s => hasSub s t) = false := by
    rw [List.any_eq_false]
    intro s hsm
    fin_cases hsm <;>
      exact fun hc => hsym _ ((hasSub_singleton _ _).1 hc) (by decide)
  simp [is_word_problem, h1, h2]

/-- C10 witness: the general part of C10 applied to the concrete input
`"find X now"`. -/
theorem claim_C10_witness : is_word_problem "find X now".data = true :=
  claim_C10.2.2.2 "find X now".data (by decide) (by decide)

/-- C4 (confirmed).  In `solve_problem` the derivative guard is tested
before the integral guard and both are satisfied by effective type
Calculus alone: any cleaned text of effective type Calculus that is not
a simple calculation and does not trigger the algebra branch is routed
to the derivative branch (whatever keywords it contains), and the
integral branch is reachable only for effective types other than
Calculus. -/
theorem claim_C4 :
    (∀ (t : List Char) (pt : ProblemType),
      effectiveType t pt = .calculus →
      is_simple_calculation t = false →
      hasSub "solve".data (pyLower t) = false →
      solveRoute t pt = .derivative) ∧
    (∀ (t : List Char) (pt : ProblemType),
      solveRoute t pt = .integral → effectiveType t pt ≠ .calculus) := by
  constructor
  · intro t pt hty hcalc hsolve
    simp [solveRoute, hty, hcalc, hsolve]
  · intro t pt h hc
    simp only [solveRoute, hc] at h
    split_ifs at h <;> simp_all

/-- C4 witness: the concrete input `"integrate x**2"` (integral keyword,
no derivative keyword) auto-detects to Calculus and is routed to the
derivative branch. -/
theorem claim_C4_witness :
    solveRoute "integrate x**2".data .autoDetect = .derivative :=
  claim_C4.1 "integrate x**2".data .autoDetect (by decide) (by decide) (by decide)

/-- C5 (confirmed).  The top-level entry points are total with errors
reified: whatever the branch solvers do (including raising),
`solve_problem` returns a structured result — the error dictionary
carrying the message when the branch raised — and
`extract_math_from_text` returns an optional expression; neither lets
an exception escape. -/
theorem claim_C5 :
    (∀ (branches : Branch → Except (List Char) SolveResult)
      (t : List Char) (pt : ProblemType),
      (∃ r : SolveResult, solve_problem branches t pt = .ok r) ∧
      (∀ e : List Char, branches (solveRoute (preprocess t) pt) = .error e →
        solve_problem branches t pt = .ok (errorResult e))) ∧
    (∀ (handlers : List Char → List ℚ → Except (List Char) (Option (List Char)))
      (t : List Char),
      ∃ o : Option (List Char), extract_math_from_text handlers t = .ok o) := by
  refine ⟨fun branches t pt => ⟨?_, ?_⟩, fun handlers t => ?_⟩
  · cases hb : branches (solveRoute (preprocess t) pt) with
    | ok r => exact ⟨r, by simp [solve_problem, hb]⟩
    | error e => exact ⟨errorResult e, by simp [solve_problem, hb]⟩
  · intro e he
    simp [solve_problem, he]
  · cases hb : handlers (pyLower t) (extract_numbers (pyLower t)) with
    | ok o => exact ⟨o, by simp [extract_math_from_text, hb]⟩
    | error e => exact ⟨none, by simp [extract_math_from_text, hb]⟩

/-- C5 witness: a branch behaviour that always raises still produces the
structured error dictionary. -/
theorem claim_C5_witness :
    solve_problem (fun _ => Except.error "boom".data) "x + 1 = 2".data .autoDetect
      = Except.ok (errorResult "boom".data) :=
  (claim_C5.1 (fun _ => Except.error "boom".data) "x + 1 = 2".data .autoDetect).2
    "boom".data rfl

/-- C8 (confirmed).  On a sum-and-difference text with at least two
numbers the system handler emits `x + y = S, x - y = D` with `S` the
larger and `D` the smaller of the first two numbers (hence swapping the
first two numbers leaves the system unchanged), and the end-to-end
solution is `x = 30, y = 20`. -/
theorem claim_C8 :
    (∀ (t : List Char) (a b : ℚ) (r : List ℚ),
      handle_system_word_problem t (a :: b :: r) =
        if hasSub "sum".data t && hasSub "difference".data t then
          some (max a b, min a b)
        else none) ∧
    (∀ (t : List Char) (a b : ℚ) (r : List ℚ),
      handle_system_word_problem t (a :: b :: r) =
        handle_system_word_problem t (b :: a :: r)) ∧
    handle_system_word_problem "two numbers sum to 50 and their difference is 10.".data
      (extract_numbers "two numbers sum to 50 and their difference is 10.".data)
      = some (50, 10) ∧
    (∀ x y : ℚ, (x + y = 50 ∧ x - y = 10) ↔ (x = 30 ∧ y = 20)) := by
  have key : ∀ (t : List Char) (a b : ℚ) (r : List ℚ),
      handle_system_word_problem t (a :: b :: r) =
        if hasSub "sum".data t && hasSub "difference".data t then
          some (max a b, min a b)
        else none := by
    intro t a b r
    simp only [handle_system_word_problem, List.length_cons, List.headI, List.tail_cons]
    rw [if_pos (by omega)]
    split
    · rcases le_or_lt a b with hab | hab
      · rw [if_neg (not_lt.2 hab), if_neg (not_lt.2 hab), max_comm,
          max_eq_left hab, min_eq_left hab]
      · rw [if_pos hab, if_pos hab, max_eq_left hab.le, min_eq_right hab.le]
    · rfl
  refine ⟨key, fun t a b r => ?_, by decide, fun x y => ?_⟩
  · rw [key, key, max_comm, min_comm]
  · constructor
    · rintro ⟨h1, h2⟩
      constructor <;> linarith
    · rintro ⟨rfl, rfl⟩
      norm_num

/-- C9 (confirmed).  The complex-motion handler returns a system only
when the number list has at least three elements and the second and
third (the two times) are nonzero — the Python truthiness guard — so
the divisions `distance/time` never divide by zero; the emitted system
is `distance/t₁, distance/t₂` in boat or plane form. -/
theorem claim_C9 :
    ∀ (t : List Char) (ns : List ℚ) (r : MotionSystem),
      handle_complex_motion_problem t ns = some r →
      ∃ (d t1 t2 : ℚ) (rest : List ℚ),
        ns = d :: t1 :: t2 :: rest ∧ t1 ≠ 0 ∧ t2 ≠ 0 ∧
          (r = .boat (d / t1) (d / t2) ∨ r = .plane (d / t1) (d / t2)) := by
  intro t ns r h
  rcases ns with _ | ⟨d, _ | ⟨t1, _ | ⟨t2, rest⟩⟩⟩ <;>
    simp only [handle_complex_motion_problem, List.length_nil, List.length_cons] at h
  · rw [if_neg (by omega)] at h
    exact absurd h (by simp)
  · rw [if_neg (by omega)] at h
    exact absurd h (by simp)
  · rw [if_neg (by omega)] at h
    exact absurd h (by simp)
  · rw [if_pos (by omega)] at h
    refine ⟨d, t1, t2, rest, rfl, ?_⟩
    simp only [List.headI, List.tail_cons] at h
    split_ifs at h with hb hdu hnz hp htw hnz2
    all_goals
      first
      | exact Option.noConfusion h
      | (obtain ⟨ht1, ht2⟩ := hnz
         exact ⟨ht1, ht2, Or.inl (by injection h with h'; exact h'.symm)⟩)
      | (obtain ⟨ht1, ht2⟩ := hnz2
         exact ⟨ht1, ht2, Or.inr (by injection h with h'; exact h'.symm)⟩)

theorem takeWhile_append_all {p : Char → Bool} (d l : List Char)
    (h : d.all p = true) : (d ++ l).takeWhile p = d ++ l.takeWhile p := by
  induction d with
  | nil => simp
  | cons c d' ih =>
    rw [List.all_cons, Bool.and_eq_true] at h
    simp only [List.cons_append, List.takeWhile_cons, h.1, if_true, ih h.2]

theorem decimalVal_nil (d : List Char) : decimalVal d [] = (natOfDigits d : ℚ) := by
  simp [decimalVal, natOfDigits]

theorem pctTry_digits (d : List Char) (hne : d ≠ []) (hall : d.all isDigitCh = true) :
    pctTry (d ++ ['%']) = some ((natOfDigits d : ℚ), []) := by
  have hds : (d ++ ['%']).takeWhile isDigitCh = d := by
    rw [takeWhile_append_all d ['%'] hall]
    simp [List.takeWhile, isDigitCh]
  have hdrop : (d ++ ['%']).drop d.length = ['%'] := List.drop_left d ['%']
  simp only [pctTry, hds, hdrop, List.isEmpty_eq_true, hne, if_false]
  have hsp : List.dropWhile pySpace ['%'] = ['%'] := by decide
  simp [hsp, decimalVal_nil]

theorem pctScan_digits_pct (d : List Char) (hne : d ≠ []) (hall : d.all isDigitCh = true) :
    pctScan (d ++ ['%']) = ([(natOfDigits d : ℚ)], [' ']) := by
  obtain ⟨c, d', rfl⟩ := List.exists_cons_of_ne_nil hne
  have htry := pctTry_digits (c :: d') hne hall
  show pctGo ((c :: d') ++ ['%']).length ((c :: d') ++ ['%']) = _
  have hlen : ((c :: d') ++ ['%']).length = (d' ++ ['%']).length + 1 := by simp
  rw [hlen, List.cons_append]
  rw [List.cons_append] at htry
  simp [pctGo, htry]

theorem fracTry_slash {l : List Char} {x : ℕ × ℕ × List Char}
    (h : fracTry l = some x) : '/' ∈ l := by
  by_cases h1 : (l.takeWhile isDigitCh).isEmpty
  · rw [fracTry.eq_def] at h
    simp only [h1, if_true] at h
    exact Option.noConfusion h
  · rcases hd : l.drop (l.takeWhile isDigitCh).length with _ | ⟨c, r2⟩
    · rw [fracTry.eq_def] at h
      simp only [h1, if_false, hd] at h
      exact Option.noConfusion h
    · by_cases hc : c = '/'
      · subst hc
        have hm : '/' ∈ l.drop (l.takeWhile isDigitCh).length := by
          rw [hd]
          exact List.mem_cons_self _ _
        exact (List.drop_suffix _ _).subset hm
      · rw [fracTry.eq_def] at h
        simp only [h1, if_false, hd, hc] at h
        exact Option.noConfusion h

theorem fracGo_no_slash : ∀ (fuel : ℕ) (b : Bool) (l : List Char),
    '/' ∉ l → (fracGo fuel b l).1 = [] := by
  intro fuel
  induction fuel with
  | zero =>
    intro b l _
    cases l <;> simp [fracGo]
  | succ n ih =>
    intro b l hl
    cases l with
    | nil => simp [fracGo]
    | cons c r =>
      have hr : '/' ∉ r := fun hc => hl (List.mem_cons_of_mem _ hc)
      by_cases hb : b
      · subst hb
        simp only [fracGo, if_true, ih (isDigitCh c) r hr]
      · simp only [Bool.not_eq_true] at hb
        subst hb
        cases htry : fracTry (c :: r) with
        | some x => exact absurd (fracTry_slash htry) hl
        | none => simp only [fracGo, Bool.false_eq_true, if_false, htry, ih (isDigitCh c) r hr]

theorem splitWsGo_all_nonspace : ∀ (l acc : List Char),
    (∀ c ∈ l, pySpace c = false) →
    splitWsGo acc l =
      if (acc.reverse ++ l).isEmpty then [] else [acc.reverse ++ l] := by
  intro l
  induction l with
  | nil =>
    intro acc _
    simp only [splitWsGo, List.append_nil]
    rcases acc with _ | ⟨c, acc'⟩ <;> simp
  | cons c r ih =>
    intro acc hl
    have hc : pySpace c = false := hl c (List.mem_cons_self _ _)
    simp only [splitWsGo, hc, Bool.false_eq_true, if_false]
    rw [ih (c :: acc) (fun d hd => hl d (List.mem_cons_of_mem _ hd))]
    have : (c :: acc).reverse ++ r = acc.reverse ++ c :: r := by
      simp [List.reverse_cons, List.append_assoc]
    rw [this]

theorem splitWs_single (l : List Char) (hne : l ≠ [])
    (h : ∀ c ∈ l, pySpace c = false) : splitWs l = [l] := by
  rw [splitWs, splitWsGo_all_nonspace l [] h]
  simp only [List.reverse_nil, List.nil_append]
  rw [if_neg (by simpa using hne)]

theorem toLower_digit {c : Char} (h : isDigitCh c = true) : c.toLower = c := by
  simp only [isDigitCh, Bool.and_eq_true, decide_eq_true_eq] at h
  have h2 := h.2
  rw [Char.le_def] at h2
  have h57 : c.toNat ≤ 57 := h2
  simp only [Char.toLower]
  rw [if_neg]
  rintro ⟨h65, _⟩
  omega

theorem normWord_digits_pct (d : List Char) (hall : d.all isDigitCh = true) :
    normWord (d ++ ['%']) = d := by
  have hmap : (d ++ ['%']).map Char.toLower = d ++ ['%'] := by
    rw [List.map_append]
    have h1 : d.map Char.toLower = d := by
      rw [List.map_congr_left (g := id) ?_, List.map_id]
      intro a ha
      exact toLower_digit (by
        rw [List.all_eq_true] at hall
        exact hall a ha)
    have h2 : (['%'] : List Char).map Char.toLower = ['%'] := by decide
    rw [h1, h2]
  rw [normWord, hmap, List.filter_append]
  have h3 : d.filter isWordCh = d := by
    rw [List.filter_eq_self]
    intro a ha
    rw [List.all_eq_true] at hall
    have := hall a ha
    simp [isWordCh, this]
  have h4 : (['%'] : List Char).filter isWordCh = [] := by decide
  rw [h3, h4, List.append_nil]

theorem lookupNW_digits (d : List Char)
    (hall : d.all isDigitCh = true) : lookupNW d = none := by
  rw [lookupNW]
  rw [show (numberWords.find? (fun p => p.1 == d)) = none from ?_]
  · rfl
  rw [List.find?_eq_none]
  intro x hx
  fin_cases hx <;>
    · simp only [beq_iff_eq]
      intro he
      rw [← he] at hall
      exact absurd hall (by decide)

theorem pySpace_digit {c : Char} (h : isDigitCh c = true) : pySpace c = false := by
  simp only [isDigitCh, Bool.and_eq_true, decide_eq_true_eq] at h
  have h1 := h.1
  rw [Char.le_def] at h1
  have h48 : 48 ≤ c.toNat := h1
  by_contra hc
  rw [Bool.not_eq_false] at hc
  simp only [pySpace, Bool.or_eq_true, decide_eq_true_eq] at hc
  rcases hc with ((((hc | hc) | hc) | hc) | hc) | hc <;>
    (subst hc; exact absurd h48 (by decide))

/-- C7 (confirmed).  Every percentage match `N%` contributes the value
`N/100` exactly once to the extractor's output (the output is
duplicate-free and the value is a member); and for a bare percentage
text `N%` (any nonempty digit string `N`) the output is exactly
`[N/100]` — the digits of `N` are not additionally emitted as a plain
digit token, because the match is blanked from the working copy before
the plain-digit scan. -/
theorem claim_C7 :
    (∀ (t : List Char) (v : ℚ), v ∈ (pctScan t).1 →
      (extract_numbers t).count (v / 100) = 1) ∧
    (∀ d : List Char, d ≠ [] → d.all isDigitCh = true →
      extract_numbers (d ++ ['%']) = [(natOfDigits d : ℚ) / 100]) := by
  constructor
  · intro t v hv
    have hmem : v / 100 ∈ rawTokens t :=
      List.mem_append_left _ (List.mem_append_left _ (List.mem_append_left _
        (List.mem_map_of_mem _ hv)))
    have hin : v / 100 ∈ extract_numbers t := by
      rw [extract_numbers, dedupFirst, mem_dedupFirstGo]
      exact ⟨hmem, List.not_mem_nil _⟩
    exact List.count_eq_one_of_mem (nodup_dedupFirstGo [] _) hin
  · intro d hne hall
    have hpct := pctScan_digits_pct d hne hall
    have hslash : '/' ∉ d ++ ['%'] := by
      intro hc
      rcases List.mem_append.1 hc with hc | hc
      · rw [List.all_eq_true] at hall
        exact absurd (hall _ hc) (by decide)
      · simp at hc
    have hfrac : fracVals (d ++ ['%']) = [] := by
      rw [fracVals, fracScan, fracGo_no_slash _ _ _ hslash]
      rfl
    have hwork : workingCopy (d ++ ['%']) = [' '] := by
      rw [workingCopy, hpct]
      show (fracScan [' ']).2 = [' ']
      decide
    have hword : wordVals (d ++ ['%']) = [] := by
      rw [wordVals]
      have hsp : ∀ c ∈ d ++ ['%'], pySpace c = false := by
        intro c hc
        rcases List.mem_append.1 hc with hc | hc
        · rw [List.all_eq_true] at hall
          exact pySpace_digit (hall _ hc)
        · simp only [List.mem_singleton] at hc
          subst hc
          decide
      rw [splitWs_single _ (by simp) hsp]
      simp only [List.map_cons, List.map_nil, normWord_digits_pct d hall]
      simp [wordScan, lookupNW_digits d hall]
    rw [extract_numbers, rawTokens, hpct, hfrac, hwork, hword]
    simp [dedupFirst, dedupFirstGo]

/-- C7 witness: the percentage family theorem applied to the digit
string `"25"`: the text `"25%"` extracts to exactly `[25/100]`. -/
theorem claim_C7_witness :
    extract_numbers ("25".data ++ ['%']) = [(natOfDigits "25".data : ℚ) / 100] :=
  claim_C7.2 "25".data (by decide) (by decide)

/-! ## Lemmas: Text Normalizer idempotence (for C3)

Characters of each stage's output trace back to the input or to the
fixed set of characters the stage introduces. -/

theorem mem_pyStrip {c : Char} {l : List Char} (h : c ∈ pyStrip l) : c ∈ l := by
  rw [pyStrip] at h
  rw [List.mem_reverse] at h
  have h1 := (List.dropWhile_sublist pySpace).subset h
  rw [List.mem_reverse] at h1
  exact (List.dropWhile_sublist pySpace).subset h1

theorem mem_stripCmd {c : Char} {pat t : List Char} (h : c ∈ stripCmd pat t) : c ∈ t := by
  rw [stripCmd] at h
  split_ifs at h
  · rcases hd : t.drop pat.length with _ | ⟨x, r⟩ <;> rw [hd] at h
    · exact h
    · have h' : c ∈ (if pySpace x then r.dropWhile pySpace else t) := h
      split_ifs at h'
      · have h1 := (List.dropWhile_sublist pySpace).subset h'
        have h2 : c ∈ t.drop pat.length := by
          rw [hd]
          exact List.mem_cons_of_mem _ h1
        exact (List.drop_sublist _ _).subset h2
      · exact h'
  · exact h

theorem mem_stripCmds {c : Char} {t : List Char} (h : c ∈ stripCmds t) : c ∈ t :=
  mem_stripCmd (mem_stripCmd (mem_stripCmd (mem_stripCmd h)))

theorem mem_replPow {c : Char} : ∀ {l : List Char},
    c ∈ replPow l → (c ∈ l ∧ c ≠ '^') ∨ c = '*' := by
  intro l
  induction l with
  | nil => simp [replPow]
  | cons d r ih =>
    intro h
    rw [replPow] at h
    split_ifs at h with hd
    · subst hd
      simp only [List.mem_cons] at h
      rcases h with rfl | rfl | h
      · exact Or.inr rfl
      · exact Or.inr rfl
      · rcases ih h with ⟨h1, h2⟩ | h1
        · exact Or.inl ⟨List.mem_cons_of_mem _ h1, h2⟩
        · exact Or.inr h1
    · simp only [List.mem_cons] at h
      rcases h with rfl | h
      · exact Or.inl ⟨List.mem_cons_self _ _, hd⟩
      · rcases ih h with ⟨h1, h2⟩ | h1
        · exact Or.inl ⟨List.mem_cons_of_mem _ h1, h2⟩
        · exact Or.inr h1

theorem mem_replDiv {c : Char} : ∀ {l : List Char},
    c ∈ replDiv l → (c ∈ l ∧ c ≠ '÷') ∨ c = '/' := by
  intro l
  induction l with
  | nil => simp [replDiv]
  | cons d r ih =>
    intro h
    rw [replDiv] at h
    split_ifs at h with hd
    · subst hd
      simp only [List.mem_cons] at h
      rcases h with rfl | h
      · exact Or.inr rfl
      · rcases ih h with ⟨h1, h2⟩ | h1
        · exact Or.inl ⟨List.mem_cons_of_mem _ h1, h2⟩
        · exact Or.inr h1
    · simp only [List.mem_cons] at h
      rcases h with rfl | h
      · exact Or.inl ⟨List.mem_cons_self _ _, hd⟩
      · rcases ih h with ⟨h1, h2⟩ | h1
        · exact Or.inl ⟨List.mem_cons_of_mem _ h1, h2⟩
        · exact Or.inr h1

theorem mem_replTimes {c : Char} : ∀ {l : List Char},
    c ∈ replTimes l → (c ∈ l ∧ c ≠ '×') ∨ c = '*' := by
  intro l
  induction l with
  | nil => simp [replTimes]
  | cons d r ih =>
    intro h
    rw [replTimes] at h
    split_ifs at h with hd
    · subst hd
      simp only [List.mem_cons] at h
      rcases h with rfl | h
      · exact Or.inr rfl
      · rcases ih h with ⟨h1, h2⟩ | h1
        · exact Or.inl ⟨List.mem_cons_of_mem _ h1, h2⟩
        · exact Or.inr h1
    · simp only [List.mem_cons] at h
      rcases h with rfl | h
      · exact Or.inl ⟨List.mem_cons_self _ _, hd⟩
      · rcases ih h with ⟨h1, h2⟩ | h1
        · exact Or.inl ⟨List.mem_cons_of_mem _ h1, h2⟩
        · exact Or.inr h1

theorem mem_replPi {c : Char} : ∀ {l : List Char},
    c ∈ replPi l → (c ∈ l ∧ c ≠ 'π') ∨ c = 'p' ∨ c = 'i' := by
  intro l
  induction l with
  | nil => simp [replPi]
  | cons d r ih =>
    intro h
    rw [replPi] at h
    split_ifs at h with hd
    · subst hd
      simp only [List.mem_cons] at h
      rcases h with rfl | rfl | h
      · exact Or.inr (Or.inl rfl)
      · exact Or.inr (Or.inr rfl)
      · rcases ih h with ⟨h1, h2⟩ | h1
        · exact Or.inl ⟨List.mem_cons_of_mem _ h1, h2⟩
        · exact Or.inr h1
    · simp only [List.mem_cons] at h
      rcases h with rfl | h
      · exact Or.inl ⟨List.mem_cons_self _ _, hd⟩
      · rcases ih h with ⟨h1, h2⟩ | h1
        · exact Or.inl ⟨List.mem_cons_of_mem _ h1, h2⟩
        · exact Or.inr h1

theorem mem_replInf {c : Char} : ∀ {l : List Char},
    c ∈ replInf l → (c ∈ l ∧ c ≠ '∞') ∨ c = 'o' := by
  intro l
  induction l with
  | nil => simp [replInf]
  | cons d r ih =>
    intro h
    rw [replInf] at h
    split_ifs at h with hd
    · subst hd
      simp only [List.mem_cons] at h
      rcases h with rfl | rfl | h
      · exact Or.inr rfl
      · exact Or.inr rfl
      · rcases ih h with ⟨h1, h2⟩ | h1
        · exact Or.inl ⟨List.mem_cons_of_mem _ h1, h2⟩
        · exact Or.inr h1
    · simp only [List.mem_cons] at h
      rcases h with rfl | h
      · exact Or.inl ⟨List.mem_cons_self _ _, hd⟩
      · rcases ih h with ⟨h1, h2⟩ | h1
        · exact Or.inl ⟨List.mem_cons_of_mem _ h1, h2⟩
        · exact Or.inr h1

theorem sqrtTry_spec {l body rest : List Char} (h : sqrtTry l = some (body, rest)) :
    (∀ c ∈ body, c ∈ l) ∧ (∀ c ∈ rest, c ∈ l) := by
  rcases l with _ | ⟨c1, _ | ⟨c2, r⟩⟩
  · exact Option.noConfusion h
  · exact Option.noConfusion h
  · have h' : (if c1 = '√' ∧ c2 = '(' then
        if (r.takeWhile (· ≠ ')')).isEmpty then none
        else
          match r.drop (r.takeWhile (· ≠ ')')).length with
          | c3 :: rest' => if c3 = ')' then some (r.takeWhile (· ≠ ')'), rest') else none
          | [] => none
      else none) = some (body, rest) := h
    split_ifs at h' with h1 h2
    · rcases hd : r.drop (r.takeWhile (· ≠ ')')).length with _ | ⟨c3, rest'⟩ <;>
        rw [hd] at h'
      · exact Option.noConfusion h'
      · have h'' : (if c3 = ')' then some (r.takeWhile (· ≠ ')'), rest') else none)
            = some (body, rest) := h'
        split_ifs at h'' with h3
        · injection h'' with h4
          injection h4 with h5 h6
          subst h5
          subst h6
          constructor
          · intro c hc
            have := (List.takeWhile_sublist (p := (· ≠ ')'))).subset hc
            exact List.mem_cons_of_mem _ (List.mem_cons_of_mem _ this)
          · intro c hc
            have h7 : c ∈ r.drop (r.takeWhile (· ≠ ')')).length := by
              rw [hd]
              exact List.mem_cons_of_mem _ hc
            have := (List.drop_sublist _ _).subset h7
            exact List.mem_cons_of_mem _ (List.mem_cons_of_mem _ this)

theorem mem_sqrtGo {c : Char} : ∀ (fuel : ℕ) (l : List Char),
    c ∈ sqrtGo fuel l → c ∈ l ∨ c ∈ ['s', 'q', 'r', 't', '(', ')'] := by
  intro fuel
  induction fuel with
  | zero =>
    intro l h
    cases l <;> exact Or.inl (by simpa [sqrtGo] using h)
  | succ n ih =>
    intro l h
    cases l with
    | nil => exact Or.inl (by simpa [sqrtGo] using h)
    | cons d r =>
      rw [sqrtGo] at h
      cases htry : sqrtTry (d :: r) with
      | some p =>
        rcases p with ⟨body, rest⟩
        rw [htry] at h
        obtain ⟨hbody, hrest⟩ := sqrtTry_spec htry
        simp only [List.mem_cons] at h
        rcases h with rfl | rfl | rfl | rfl | rfl | h
        · exact Or.inr (by decide)
        · exact Or.inr (by decide)
        · exact Or.inr (by decide)
        · exact Or.inr (by decide)
        · exact Or.inr (by decide)
        · rcases List.mem_append.1 h with h | h
          · exact Or.inl (hbody _ h)
          · simp only [List.mem_cons] at h
            rcases h with rfl | h
            · exact Or.inr (by decide)
            · rcases ih rest h with h | h
              · exact Or.inl (hrest _ h)
              · exact Or.inr h
      | none =>
        rw [htry] at h
        simp only [List.mem_cons] at h
        rcases h with rfl | h
        · exact Or.inl (List.mem_cons_self _ _)
        · rcases ih r h with h | h
          · exact Or.inl (List.mem_cons_of_mem _ h)
          · exact Or.inr h

theorem mem_insStar {c : Char} {p q : Char → Bool} : ∀ l : List Char,
    c ∈ insStar p q l → c ∈ l ∨ c = '*' := by
  intro l
  induction l using insStar.induct (p := p) (q := q) with
  | case1 => simp [insStar]
  | case2 d => exact fun h => Or.inl h
  | case3 a b r hpq ih =>
    intro h
    rw [insStar, if_pos hpq] at h
    simp only [List.mem_cons] at h
    rcases h with rfl | rfl | rfl | h
    · exact Or.inl (List.mem_cons_self _ _)
    · exact Or.inr rfl
    · exact Or.inl (List.mem_cons_of_mem _ (List.mem_cons_self _ _))
    · rcases ih h with h | h
      · exact Or.inl (List.mem_cons_of_mem _ (List.mem_cons_of_mem _ h))
      · exact Or.inr h
  | case4 a b r hpq ih =>
    intro h
    rw [insStar, if_neg hpq] at h
    simp only [List.mem_cons] at h
    rcases h with rfl | h
    · exact Or.inl (List.mem_cons_self _ _)
    · rcases ih h with h | h
      · exact Or.inl (List.mem_cons_of_mem _ h)
      · exact Or.inr h

theorem mem_splitWsGo : ∀ (l acc w : List Char),
    w ∈ splitWsGo acc l → ∀ d ∈ w, d ∈ acc ∨ d ∈ l := by
  intro l
  induction l with
  | nil =>
    intro acc w hw d hd
    rw [splitWsGo] at hw
    split_ifs at hw
    · exact absurd hw (List.not_mem_nil _)
    · rw [List.mem_singleton] at hw
      subst hw
      exact Or.inl (List.mem_reverse.1 hd)
  | cons x r ih =>
    intro acc w hw d hd
    rw [splitWsGo] at hw
    split_ifs at hw with hx hae
    · rcases ih [] w hw d hd with h | h
      · exact absurd h (List.not_mem_nil _)
      · exact Or.inr (List.mem_cons_of_mem _ h)
    · simp only [List.mem_cons] at hw
      rcases hw with rfl | hw
      · exact Or.inl (List.mem_reverse.1 hd)
      · rcases ih [] w hw d hd with h | h
        · exact absurd h (List.not_mem_nil _)
        · exact Or.inr (List.mem_cons_of_mem _ h)
    · rcases ih (x :: acc) w hw d hd with h | h
      · rcases List.mem_cons.1 h with rfl | h
        · exact Or.inr (List.mem_cons_self _ _)
        · exact Or.inl h
      · exact Or.inr (List.mem_cons_of_mem _ h)

theorem intercalate_cons₂ (sep x y : List Char) (zs : List (List Char)) :
    List.intercalate sep (x :: y :: zs) = x ++ sep ++ List.intercalate sep (y :: zs) := by
  simp [List.intercalate, List.intersperse]

theorem mem_intercalate_space {c : Char} : ∀ ws : List (List Char),
    c ∈ List.intercalate [' '] ws → (∃ w ∈ ws, c ∈ w) ∨ c = ' ' := by
  intro ws
  induction ws with
  | nil => simp [List.intercalate]
  | cons w ws' ih =>
    cases ws' with
    | nil =>
      intro h
      rw [show List.intercalate [' '] [w] = w by simp [List.intercalate, List.intersperse]] at h
      exact Or.inl ⟨w, List.mem_cons_self _ _, h⟩
    | cons w2 ws2 =>
      intro h
      rw [intercalate_cons₂] at h
      rcases List.mem_append.1 h with h1 | h1
      · rcases List.mem_append.1 h1 with h2 | h2
        · exact Or.inl ⟨w, List.mem_cons_self _ _, h2⟩
        · rw [List.mem_singleton] at h2
          exact Or.inr h2
      · rcases ih h1 with ⟨w', hw', hc⟩ | h2
        · exact Or.inl ⟨w', List.mem_cons_of_mem _ hw', hc⟩
        · exact Or.inr h2

theorem mem_collapseWs {c : Char} {l : List Char} (h : c ∈ collapseWs l) :
    c ∈ l ∨ c = ' ' := by
  rw [collapseWs] at h
  rcases mem_intercalate_space _ h with ⟨w, hw, hc⟩ | h1
  · rcases mem_splitWsGo l [] w hw c hc with h2 | h2
    · exact absurd h2 (List.not_mem_nil _)
    · exact Or.inl h2
  · exact Or.inr h1

/-- Every character of a normalised text is printable-or-space, and none
of the five substituted symbols survives. -/
theorem preprocess_mem (s : List Char) :
    ∀ c ∈ preprocess s,
      keepChar c = true ∧ c ≠ '^' ∧ c ≠ '÷' ∧ c ≠ '×' ∧ c ≠ 'π' ∧ c ≠ '∞' := by
  intro c hc
  rw [preprocess] at hc
  rcases mem_collapseWs hc with hc | rfl
  swap
  · decide
  rw [parenProd] at hc
  rcases mem_insStar _ hc with hc | rfl
  swap
  · decide
  rw [letterDigit] at hc
  rcases mem_insStar _ hc with hc | rfl
  swap
  · decide
  rw [digitLetter] at hc
  rcases mem_insStar _ hc with hc | rfl
  swap
  · decide
  rw [sqrtRepl] at hc
  rcases mem_sqrtGo _ _ hc with hc | hintro
  swap
  · fin_cases hintro <;> decide
  rcases mem_replInf hc with ⟨hc, hne5⟩ | rfl
  swap
  · decide
  rcases mem_replPi hc with ⟨hc, hne4⟩ | hintro
  swap
  · rcases hintro with rfl | rfl <;> decide
  rcases mem_replTimes hc with ⟨hc, hne3⟩ | rfl
  swap
  · decide
  rcases mem_replDiv hc with ⟨hc, hne2⟩ | rfl
  swap
  · decide
  rcases mem_replPow hc with ⟨hc, hne1⟩ | rfl
  swap
  · decide
  have hkeep : keepChar c = true := List.of_mem_filter (mem_stripCmds hc)
  exact ⟨hkeep, hne1, hne2, hne3, hne4, hne5⟩

theorem replPow_id : ∀ {l : List Char}, '^' ∉ l → replPow l = l := by
  intro l h
  induction l with
  | nil => rfl
  | cons d r ih =>
    have hd : d ≠ '^' := fun hc => h (hc ▸ List.mem_cons_self _ _)
    rw [replPow, if_neg hd, ih (fun hc => h (List.mem_cons_of_mem _ hc))]

theorem replDiv_id : ∀ {l : List Char}, '÷' ∉ l → replDiv l = l := by
  intro l h
  induction l with
  | nil => rfl
  | cons d r ih =>
    have hd : d ≠ '÷' := fun hc => h (hc ▸ List.mem_cons_self _ _)
    rw [replDiv, if_neg hd, ih (fun hc => h (List.mem_cons_of_mem _ hc))]

theorem replTimes_id : ∀ {l : List Char}, '×' ∉ l → replTimes l = l := by
  intro l h
  induction l with
  | nil => rfl
  | cons d r ih =>
    have hd : d ≠ '×' := fun hc => h (hc ▸ List.mem_cons_self _ _)
    rw [replTimes, if_neg hd, ih (fun hc => h (List.mem_cons_of_mem _ hc))]

theorem replPi_id : ∀ {l : List Char}, 'π' ∉ l → replPi l = l := by
  intro l h
  induction l with
  | nil => rfl
  | cons d r ih =>
    have hd : d ≠ 'π' := fun hc => h (hc ▸ List.mem_cons_self _ _)
    rw [replPi, if_neg hd, ih (fun hc => h (List.mem_cons_of_mem _ hc))]

theorem replInf_id : ∀ {l : List Char}, '∞' ∉ l → replInf l = l := by
  intro l h
  induction l with
  | nil => rfl
  | cons d r ih =>
    have hd : d ≠ '∞' := fun hc => h (hc ▸ List.mem_cons_self _ _)
    rw [replInf, if_neg hd, ih (fun hc => h (List.mem_cons_of_mem _ hc))]

theorem sqrtTry_none {c : Char} {r : List Char} (hc : c ≠ '√') :
    sqrtTry (c :: r) = none := by
  cases r with
  | nil => rfl
  | cons c2 r' =>
    rw [sqrtTry.eq_def]
    simp only [if_neg (fun hp : c = '√' ∧ c2 = '(' => hc hp.1)]

theorem sqrtGo_id : ∀ (fuel : ℕ) {l : List Char}, '√' ∉ l → sqrtGo fuel l = l := by
  intro fuel
  induction fuel with
  | zero =>
    intro l _
    cases l <;> rfl
  | succ n ih =>
    intro l h
    cases l with
    | nil => rfl
    | cons d r =>
      have hd : d ≠ '√' := fun hc => h (hc ▸ List.mem_cons_self _ _)
      rw [sqrtGo, sqrtTry_none hd, ih (fun hc => h (List.mem_cons_of_mem _ hc))]

theorem sqrtRepl_id {l : List Char} (h : '√' ∉ l) : sqrtRepl l = l :=
  sqrtGo_id _ h

theorem badAdj_cons {p q : Char → Bool} {a b : Char} {r : List Char}
    (h : badAdj p q (a :: b :: r) = false) :
    (p a && q b) = false ∧ badAdj p q (b :: r) = false := by
  rw [badAdj] at h
  rw [show adjPairs (a :: b :: r) = (a, b) :: adjPairs (b :: r) from rfl] at h
  rw [List.any_cons, Bool.or_eq_false_iff] at h
  exact ⟨h.1, h.2⟩

theorem insStar_id {p q : Char → Bool} : ∀ {l : List Char},
    badAdj p q l = false → insStar p q l = l := by
  intro l
  induction l using insStar.induct (p := p) (q := q) with
  | case1 => intro _; rfl
  | case2 d => intro _; rfl
  | case3 a b r hpq ih =>
    intro h
    exact absurd (badAdj_cons h).1 (by simp [hpq])
  | case4 a b r hpq ih =>
    intro h
    rw [insStar, if_neg hpq, ih (badAdj_cons h).2]

theorem dropWhile_eq_self_of_head {p : Char → Bool} {l : List Char}
    (h : ∀ c, l.head? = some c → p c = false) : l.dropWhile p = l := by
  cases l with
  | nil => rfl
  | cons d r =>
    rw [List.dropWhile_cons, if_neg]
    rw [h d rfl]
    simp

theorem pyStrip_eq_self {l : List Char}
    (h1 : ∀ c, l.head? = some c → pySpace c = false)
    (h2 : ∀ c, l.getLast? = some c → pySpace c = false) : pyStrip l = l := by
  rw [pyStrip, dropWhile_eq_self_of_head h1, dropWhile_eq_self_of_head
    (fun c hc => h2 c (by rwa [List.head?_reverse] at hc)), List.reverse_reverse]

theorem adjPairs_cons_sub {pr : Char × Char} {c : Char} {r : List Char}
    (h : pr ∈ adjPairs r) : pr ∈ adjPairs (c :: r) := by
  cases r with
  | nil => exact absurd h (List.not_mem_nil _)
  | cons x r2 =>
    rw [show adjPairs (c :: x :: r2) = (c, x) :: adjPairs (x :: r2) from rfl]
    exact List.mem_cons_of_mem _ h

theorem insStar_head (p q : Char → Bool) (c : Char) (r : List Char) :
    ∃ t', insStar p q (c :: r) = c :: t' := by
  cases r with
  | nil => exact ⟨[], rfl⟩
  | cons b r2 =>
    rw [insStar]
    split_ifs
    · exact ⟨_, rfl⟩
    · exact ⟨_, rfl⟩

theorem adjPairs_insStar {p q : Char → Bool} : ∀ {l : List Char} {pr : Char × Char},
    pr ∈ adjPairs (insStar p q l) → pr ∈ adjPairs l ∨ pr.1 = '*' ∨ pr.2 = '*' := by
  intro l
  induction l using insStar.induct (p := p) (q := q) with
  | case1 => intro pr h; exact absurd h (List.not_mem_nil _)
  | case2 d => intro pr h; exact absurd h (List.not_mem_nil _)
  | case3 a b r hpq ih =>
    intro pr h
    rw [insStar, if_pos hpq] at h
    rw [show adjPairs (a :: '*' :: b :: insStar p q r)
      = (a, '*') :: ('*', b) :: adjPairs (b :: insStar p q r) from rfl] at h
    simp only [List.mem_cons] at h
    rcases h with rfl | rfl | h
    · exact Or.inr (Or.inr rfl)
    · exact Or.inr (Or.inl rfl)
    · cases hr : r with
      | nil =>
        rw [hr] at h
        exact absurd h (List.not_mem_nil _)
      | cons x r2 =>
        rw [hr] at h
        obtain ⟨t', ht'⟩ := insStar_head p q x r2
        rw [ht'] at h
        rw [show adjPairs (b :: x :: t') = (b, x) :: adjPairs (x :: t') from rfl] at h
        simp only [List.mem_cons] at h
        rcases h with rfl | h
        · refine Or.inl (adjPairs_cons_sub ?_)
          rw [show adjPairs (b :: x :: r2) = (b, x) :: adjPairs (x :: r2) from rfl]
          exact List.mem_cons_self _ _
        · rw [← ht'] at h
          rcases ih (hr ▸ h) with h1 | h1
          · rw [hr] at h1
            exact Or.inl (adjPairs_cons_sub (adjPairs_cons_sub h1))
          · exact Or.inr h1
  | case4 a b r hpq ih =>
    intro pr h
    rw [insStar, if_neg hpq] at h
    obtain ⟨t', ht'⟩ := insStar_head p q b r
    rw [ht'] at h
    rw [show adjPairs (a :: b :: t') = (a, b) :: adjPairs (b :: t') from rfl] at h
    simp only [List.mem_cons] at h
    rcases h with rfl | h
    · exact Or.inl (List.mem_cons_self _ _)
    · rw [← ht'] at h
      rcases ih h with h1 | h1
      · exact Or.inl (adjPairs_cons_sub h1)
      · exact Or.inr h1

theorem badAdj_eq_false_iff {p q : Char → Bool} {l : List Char} :
    badAdj p q l = false ↔ ∀ pr ∈ adjPairs l, ¬(p pr.1 = true ∧ q pr.2 = true) := by
  rw [badAdj, List.any_eq_false]
  constructor
  · intro h pr hpr hc
    have := h pr hpr
    rw [Bool.and_eq_true] at this
    exact this ⟨hc.1, hc.2⟩
  · intro h pr hpr hc
    rw [Bool.and_eq_true] at hc
    exact h pr hpr ⟨hc.1, hc.2⟩

theorem badAdj_insStar_preserve {p q p' q' : Char → Bool} {l : List Char}
    (hps : p '*' = false) (hqs : q '*' = false)
    (h : badAdj p q l = false) : badAdj p q (insStar p' q' l) = false := by
  rw [badAdj_eq_false_iff] at h ⊢
  intro pr hpr hc
  rcases adjPairs_insStar hpr with h1 | h1 | h1
  · exact h pr h1 hc
  · rw [h1] at hc
    rw [hc.1] at hps
    exact Bool.noConfusion hps
  · rw [h1] at hc
    rw [hc.2] at hqs
    exact Bool.noConfusion hqs

theorem insStar_clears {p q : Char → Bool} (hdisj : ∀ c, ¬(p c = true ∧ q c = true))
    (hps : p '*' = false) (hqs : q '*' = false) :
    ∀ l : List Char, badAdj p q (insStar p q l) = false := by
  intro l
  induction l using insStar.induct (p := p) (q := q) with
  | case1 => rfl
  | case2 d => rfl
  | case3 a b r hpq ih =>
    rw [insStar, if_pos hpq]
    rw [badAdj_eq_false_iff]
    intro pr hpr hc
    rw [show adjPairs (a :: '*' :: b :: insStar p q r)
      = (a, '*') :: ('*', b) :: adjPairs (b :: insStar p q r) from rfl] at hpr
    simp only [List.mem_cons] at hpr
    rcases hpr with rfl | rfl | hpr
    · rw [hc.2] at hqs
      exact Bool.noConfusion hqs
    · rw [hc.1] at hps
      exact Bool.noConfusion hps
    · cases hr : r with
      | nil =>
        rw [hr] at hpr
        exact absurd hpr (List.not_mem_nil _)
      | cons x r2 =>
        rw [hr] at hpr
        obtain ⟨t', ht'⟩ := insStar_head p q x r2
        rw [ht'] at hpr
        rw [show adjPairs (b :: x :: t') = (b, x) :: adjPairs (x :: t') from rfl] at hpr
        simp only [List.mem_cons] at hpr
        rcases hpr with rfl | hpr
        · -- pair (b, x): b satisfies q, so p b is false by disjointness
          rw [Bool.and_eq_true] at hpq
          exact hdisj b ⟨hc.1, hpq.2⟩
        · rw [← ht', ← hr] at hpr
          rw [badAdj_eq_false_iff] at ih
          exact ih pr hpr hc
  | case4 a b r hpq ih =>
    rw [insStar, if_neg hpq]
    rw [badAdj_eq_false_iff]
    intro pr hpr hc
    obtain ⟨t', ht'⟩ := insStar_head p q b r
    rw [ht'] at hpr
    rw [show adjPairs (a :: b :: t') = (a, b) :: adjPairs (b :: t') from rfl] at hpr
    simp only [List.mem_cons] at hpr
    rcases hpr with rfl | hpr
    · exact hpq (by rw [hc.1, hc.2]; rfl)
    · rw [← ht'] at hpr
      rw [badAdj_eq_false_iff] at ih
      exact ih pr hpr hc

theorem adjPairs_append_left {y : List Char} : ∀ {x : List Char} {pr : Char × Char},
    pr ∈ adjPairs x → pr ∈ adjPairs (x ++ y) := by
  intro x
  induction x using adjPairs.induct with
  | case1 => intro pr h; exact absurd h (List.not_mem_nil _)
  | case2 a => intro pr h; exact absurd h (List.not_mem_nil _)
  | case3 a b r ih =>
    intro pr h
    rw [show adjPairs (a :: b :: r) = (a, b) :: adjPairs (b :: r) from rfl] at h
    rcases List.mem_cons.1 h with rfl | h
    · rw [show ((a :: b :: r) ++ y) = a :: b :: (r ++ y) from rfl]
      rw [show adjPairs (a :: b :: (r ++ y)) = (a, b) :: adjPairs (b :: (r ++ y)) from rfl]
      exact List.mem_cons_self _ _
    · exact adjPairs_cons_sub (ih h)

theorem adjPairs_append_right {x : List Char} : ∀ {y : List Char} {pr : Char × Char},
    pr ∈ adjPairs y → pr ∈ adjPairs (x ++ y) := by
  induction x with
  | nil => intro y pr h; exact h
  | cons c x' ih => intro y pr h; exact adjPairs_cons_sub (ih h)

theorem adjPairs_append_elim : ∀ (x y : List Char) {pr : Char × Char},
    pr ∈ adjPairs (x ++ y) →
    pr ∈ adjPairs x ∨ pr ∈ adjPairs y ∨
      (∃ a b, pr = (a, b) ∧ x.getLast? = some a ∧ y.head? = some b) := by
  intro x
  induction x with
  | nil => intro y pr h; exact Or.inr (Or.inl h)
  | cons c x' ih =>
    intro y pr h
    cases x' with
    | nil =>
      cases y with
      | nil => exact absurd h (List.not_mem_nil _)
      | cons d y' =>
        rw [show (([c] : List Char) ++ (d :: y')) = c :: d :: y' from rfl] at h
        rw [show adjPairs (c :: d :: y') = (c, d) :: adjPairs (d :: y') from rfl] at h
        rcases List.mem_cons.1 h with rfl | h
        · exact Or.inr (Or.inr ⟨c, d, rfl, rfl, rfl⟩)
        · exact Or.inr (Or.inl h)
    | cons c2 x2 =>
      rw [show ((c :: c2 :: x2) ++ y) = c :: ((c2 :: x2) ++ y) from rfl] at h
      rw [show ((c2 :: x2) ++ y) = c2 :: (x2 ++ y) from rfl] at h
      rw [show adjPairs (c :: c2 :: (x2 ++ y)) = (c, c2) :: adjPairs (c2 :: (x2 ++ y))
        from rfl] at h
      rcases List.mem_cons.1 h with rfl | h
      · refine Or.inl ?_
        rw [show adjPairs (c :: c2 :: x2) = (c, c2) :: adjPairs (c2 :: x2) from rfl]
        exact List.mem_cons_self _ _
      · rcases ih y h with h1 | h1 | ⟨a, b, rfl, hl, hh⟩
        · exact Or.inl (adjPairs_cons_sub h1)
        · exact Or.inr (Or.inl h1)
        · refine Or.inr (Or.inr ⟨a, b, rfl, ?_, hh⟩)
          rw [List.getLast?_cons_cons]
          exact hl

theorem adjPairs_collapse_go : ∀ (l acc : List Char) {pr : Char × Char},
    pr ∈ adjPairs (List.intercalate [' '] (splitWsGo acc l)) →
    pr ∈ adjPairs (acc.reverse ++ l) ∨ pr.1 = ' ' ∨ pr.2 = ' ' := by
  intro l
  induction l with
  | nil =>
    intro acc pr h
    rw [splitWsGo] at h
    split_ifs at h with ha
    · simp only [List.intercalate, List.intersperse, List.flatten] at h
      exact absurd h (List.not_mem_nil _)
    · rw [show List.intercalate [' '] [acc.reverse] = acc.reverse by
        simp [List.intercalate, List.intersperse]] at h
      rw [List.append_nil]
      exact Or.inl h
  | cons x r ih =>
    intro acc pr h
    rw [splitWsGo] at h
    split_ifs at h with hx ha
    · have hacc : acc = [] := by
        cases acc with
        | nil => rfl
        | cons a as => exact absurd ha (by simp)
      subst hacc
      rcases ih [] h with h1 | h1
      · simp only [List.reverse_nil, List.nil_append] at h1 ⊢
        exact Or.inl (adjPairs_cons_sub h1)
      · exact Or.inr h1
    · cases hgo : splitWsGo [] r with
      | nil =>
        rw [hgo] at h
        rw [show List.intercalate [' '] [acc.reverse] = acc.reverse by
          simp [List.intercalate, List.intersperse]] at h
        exact Or.inl (adjPairs_append_left h)
      | cons w ws2 =>
        rw [hgo, intercalate_cons₂, List.append_assoc] at h
        rcases adjPairs_append_elim _ _ h with h1 | h1 | ⟨a, b, rfl, hl, hh⟩
        · exact Or.inl (adjPairs_append_left h1)
        · cases hJ : List.intercalate [' '] (w :: ws2) with
          | nil =>
            rw [hJ] at h1
            exact absurd h1 (List.not_mem_nil _)
          | cons j0 J' =>
            rw [hJ] at h1
            rw [show (([' '] : List Char) ++ (j0 :: J')) = ' ' :: j0 :: J' from rfl] at h1
            rw [show adjPairs (' ' :: j0 :: J') = ((' ', j0) : Char × Char)
              :: adjPairs (j0 :: J') from rfl] at h1
            rcases List.mem_cons.1 h1 with rfl | h1
            · exact Or.inr (Or.inl rfl)
            · rw [← hJ, ← hgo] at h1
              rcases ih [] h1 with h2 | h2
              · simp only [List.reverse_nil, List.nil_append] at h2
                exact Or.inl (adjPairs_append_right (adjPairs_cons_sub h2))
              · exact Or.inr h2
        · have hb : b = ' ' := by
            have : ((([' '] : List Char) ++ List.intercalate [' '] (w :: ws2)).head?)
                = some ' ' := rfl
            rw [this] at hh
            exact (Option.some.inj hh).symm
          exact Or.inr (Or.inr hb)
    · rcases ih (x :: acc) h with h1 | h1
      · refine Or.inl ?_
        rw [show (x :: acc).reverse ++ r = acc.reverse ++ (x :: r) by
          rw [List.reverse_cons, List.append_assoc]; rfl] at h1
        exact h1
      · exact Or.inr h1

theorem badAdj_collapse_preserve {p q : Char → Bool} {l : List Char}
    (hps : p ' ' = false) (hqs : q ' ' = false)
    (h : badAdj p q l = false) : badAdj p q (collapseWs l) = false := by
  rw [badAdj_eq_false_iff] at h ⊢
  intro pr hpr hc
  rw [collapseWs, splitWs] at hpr
  rcases adjPairs_collapse_go l [] hpr with h1 | h1 | h1
  · exact h pr (by simpa using h1) hc
  · rw [h1] at hc
    rw [hc.1] at hps
    exact Bool.noConfusion hps
  · rw [h1] at hc
    rw [hc.2] at hqs
    exact Bool.noConfusion hqs

theorem splitWsGo_words : ∀ (l acc : List Char),
    (∀ c ∈ acc, pySpace c = false) →
    ∀ w ∈ splitWsGo acc l, w ≠ [] ∧ ∀ c ∈ w, pySpace c = false := by
  intro l
  induction l with
  | nil =>
    intro acc hacc w hw
    rw [splitWsGo] at hw
    split_ifs at hw with ha
    · exact absurd hw (List.not_mem_nil _)
    · rw [List.mem_singleton] at hw
      subst hw
      refine ⟨fun hc => ha ?_, ?_⟩
      · rw [List.isEmpty_iff]
        exact List.reverse_eq_nil_iff.1 hc
      · intro c hc
        exact hacc c (List.mem_reverse.1 hc)
  | cons x r ih =>
    intro acc hacc w hw
    rw [splitWsGo] at hw
    split_ifs at hw with hx ha
    · exact ih [] (by simp) w hw
    · rcases List.mem_cons.1 hw with rfl | hw
      · refine ⟨fun hc => ha ?_, ?_⟩
        · rw [List.isEmpty_iff]
          exact List.reverse_eq_nil_iff.1 hc
        · intro c hc
          exact hacc c (List.mem_reverse.1 hc)
      · exact ih [] (by simp) w hw
    · refine ih (x :: acc) ?_ w hw
      intro c hc
      rcases List.mem_cons.1 hc with rfl | hc
      · exact Bool.eq_false_iff.2 hx
      · exact hacc c hc

theorem splitWsGo_append_nonspace : ∀ (w acc l : List Char),
    (∀ c ∈ w, pySpace c = false) →
    splitWsGo acc (w ++ l) = splitWsGo (w.reverse ++ acc) l := by
  intro w
  induction w with
  | nil => intro acc l _; simp
  | cons c w' ih =>
    intro acc l hw
    have hc : pySpace c = false := hw c (List.mem_cons_self _ _)
    rw [List.cons_append, splitWsGo, if_neg (by simp [hc]),
      ih (c :: acc) l (fun d hd => hw d (List.mem_cons_of_mem _ hd))]
    congr 1
    rw [List.reverse_cons, List.append_assoc]
    rfl

theorem splitWs_intercalate : ∀ ws : List (List Char),
    (∀ w ∈ ws, w ≠ [] ∧ ∀ c ∈ w, pySpace c = false) →
    splitWs (List.intercalate [' '] ws) = ws := by
  intro ws
  induction ws with
  | nil => intro _; rfl
  | cons w ws' ih =>
    intro hws
    obtain ⟨hwne, hwsp⟩ := hws w (List.mem_cons_self _ _)
    cases ws' with
    | nil =>
      rw [show List.intercalate [' '] [w] = w by simp [List.intercalate, List.intersperse]]
      exact splitWs_single w hwne hwsp
    | cons w2 ws2 =>
      rw [intercalate_cons₂, List.append_assoc, splitWs,
        splitWsGo_append_nonspace w [] _ hwsp]
      rw [show (([' '] : List Char) ++ List.intercalate [' '] (w2 :: ws2))
        = ' ' :: List.intercalate [' '] (w2 :: ws2) from rfl]
      rw [splitWsGo, if_pos (by decide), if_neg ?hne]
      case hne =>
        intro hc
        rw [List.append_nil, List.isEmpty_iff, List.reverse_eq_nil_iff] at hc
        exact hwne hc
      rw [List.append_nil, List.reverse_reverse]
      refine congrArg _ ?_
      exact ih (fun w' hw' => hws w' (List.mem_cons_of_mem _ hw'))

theorem collapseWs_idem (l : List Char) : collapseWs (collapseWs l) = collapseWs l := by
  rw [show collapseWs (collapseWs l)
    = List.intercalate [' '] (splitWs (List.intercalate [' '] (splitWs l))) from rfl]
  rw [splitWs_intercalate (splitWs l) (splitWsGo_words l [] (by simp))]
  rfl

theorem mem_of_getLast?_eq {c : Char} : ∀ {l : List Char}, l.getLast? = some c → c ∈ l := by
  intro l
  induction l with
  | nil => intro h; exact Option.noConfusion h
  | cons a r ih =>
    cases r with
    | nil =>
      intro h
      rw [show (([a] : List Char)).getLast? = some a from rfl] at h
      rw [Option.some.inj h]
      exact List.mem_cons_self _ _
    | cons b r2 =>
      intro h
      rw [List.getLast?_cons_cons] at h
      exact List.mem_cons_of_mem _ (ih h)

theorem intercalate_words_ne_nil (w : List Char) (ws : List (List Char)) (hw : w ≠ []) :
    List.intercalate [' '] (w :: ws) ≠ [] := by
  cases ws with
  | nil =>
    rw [show List.intercalate [' '] [w] = w by simp [List.intercalate, List.intersperse]]
    exact hw
  | cons w2 ws2 =>
    rw [intercalate_cons₂]
    intro hc
    rw [List.append_eq_nil] at hc
    obtain ⟨hc1, _⟩ := hc
    rw [List.append_eq_nil] at hc1
    exact absurd hc1.2 (by decide)

theorem head?_intercalate_words : ∀ (ws : List (List Char)) (c : Char),
    (∀ w ∈ ws, w ≠ []) →
    (List.intercalate [' '] ws).head? = some c → ∃ w ∈ ws, c ∈ w := by
  intro ws c hws h
  cases ws with
  | nil => exact Option.noConfusion h
  | cons w ws' =>
    obtain ⟨d, w'', rfl⟩ := List.exists_cons_of_ne_nil (hws w (List.mem_cons_self _ _))
    cases ws' with
    | nil =>
      rw [show List.intercalate [' '] [d :: w''] = d :: w'' by
        simp [List.intercalate, List.intersperse]] at h
      refine ⟨d :: w'', List.mem_cons_self _ _, ?_⟩
      rw [← Option.some.inj h]
      exact List.mem_cons_self _ _
    | cons w2 ws2 =>
      rw [intercalate_cons₂] at h
      rw [show (((d :: w'') ++ [' ']) ++ List.intercalate [' '] (w2 :: ws2))
        = d :: ((w'' ++ [' ']) ++ List.intercalate [' '] (w2 :: ws2)) from rfl] at h
      refine ⟨d :: w'', List.mem_cons_self _ _, ?_⟩
      rw [← Option.some.inj h]
      exact List.mem_cons_self _ _

theorem getLast?_intercalate_words : ∀ (ws : List (List Char)) (c : Char),
    (∀ w ∈ ws, w ≠ []) →
    (List.intercalate [' '] ws).getLast? = some c → ∃ w ∈ ws, c ∈ w := by
  intro ws
  induction ws with
  | nil => intro c _ h; exact Option.noConfusion h
  | cons w ws' ih =>
    intro c hws h
    cases ws' with
    | nil =>
      rw [show List.intercalate [' '] [w] = w by
        simp [List.intercalate, List.intersperse]] at h
      exact ⟨w, List.mem_cons_self _ _, mem_of_getLast?_eq h⟩
    | cons w2 ws2 =>
      rw [intercalate_cons₂, List.getLast?_append] at h
      have hJ : List.intercalate [' '] (w2 :: ws2) ≠ [] :=
        intercalate_words_ne_nil w2 ws2 (hws w2 (List.mem_cons_of_mem _ (List.mem_cons_self _ _)))
      cases hJl : (List.intercalate [' '] (w2 :: ws2)).getLast? with
      | none => exact absurd (List.getLast?_eq_none_iff.1 hJl) hJ
      | some j =>
        rw [hJl] at h
        rw [show (some j).or ((w ++ [' ']).getLast?) = some j from rfl] at h
        obtain ⟨w', hw', hc⟩ := ih c (fun w' hw' => hws w' (List.mem_cons_of_mem _ hw'))
          (by rw [hJl, h])
        exact ⟨w', List.mem_cons_of_mem _ hw', hc⟩

theorem pyStrip_collapse (l : List Char) : pyStrip (collapseWs l) = collapseWs l := by
  have hwords := splitWsGo_words l [] (by simp)
  refine pyStrip_eq_self ?_ ?_
  · intro c hc
    obtain ⟨w, hw, hcw⟩ := head?_intercalate_words (splitWs l) c
      (fun w hw => (hwords w hw).1) hc
    exact (hwords w hw).2 c hcw
  · intro c hc
    obtain ⟨w, hw, hcw⟩ := getLast?_intercalate_words (splitWs l) c
      (fun w hw => (hwords w hw).1) hc
    exact (hwords w hw).2 c hcw

theorem digit_alpha_disjoint :
    ∀ c : Char, ¬(isDigitCh c = true ∧ isAsciiAlpha c = true) := by
  rintro c ⟨h1, h2⟩
  simp only [isDigitCh, Bool.and_eq_true, decide_eq_true_eq] at h1
  simp only [isAsciiAlpha, Bool.or_eq_true, Bool.and_eq_true, decide_eq_true_eq] at h2
  have h9 : c.toNat ≤ 57 := by
    have h' := h1.2
    rw [Char.le_def] at h'
    exact h'
  rcases h2 with ⟨ha, _⟩ | ⟨ha, _⟩
  · have h97 : 97 ≤ c.toNat := by
      rw [Char.le_def] at ha
      exact ha
    omega
  · have h65 : 65 ≤ c.toNat := by
      rw [Char.le_def] at ha
      exact ha
    omega

theorem alpha_digit_disjoint :
    ∀ c : Char, ¬(isAsciiAlpha c = true ∧ isDigitCh c = true) :=
  fun c h => digit_alpha_disjoint c ⟨h.2, h.1⟩

theorem paren_disjoint :
    ∀ c : Char, ¬((decide (c = ')') : Bool) = true ∧ (decide (c = '(') : Bool) = true) := by
  rintro c ⟨h1, h2⟩
  rw [decide_eq_true_eq] at h1 h2
  subst h1
  exact absurd h2 (by decide)

/-- C3 (corrected).  The Text Normalizer is not idempotent in general
(repeated command words and nested `√(...)` patterns break it), but it
is idempotent on every input whose normalised form does not still begin
with a command phrase (equivalently: command stripping is a no-op on it)
and contains no `√` character. -/
theorem claim_C3 :
    ∀ s : List Char,
      stripCmds (preprocess s) = preprocess s →
      '√' ∉ preprocess s →
      preprocess (preprocess s) = preprocess s := by
  intro s hcmd hsqrt
  have hmem := preprocess_mem s
  have hkeep : ∀ c ∈ preprocess s, keepChar c = true := fun c hc => (hmem c hc).1
  have hpow : '^' ∉ preprocess s := fun hc => (hmem _ hc).2.1 rfl
  have hdiv : '÷' ∉ preprocess s := fun hc => (hmem _ hc).2.2.1 rfl
  have htimes : '×' ∉ preprocess s := fun hc => (hmem _ hc).2.2.2.1 rfl
  have hpi : 'π' ∉ preprocess s := fun hc => (hmem _ hc).2.2.2.2.1 rfl
  have hinf : '∞' ∉ preprocess s := fun hc => (hmem _ hc).2.2.2.2.2 rfl
  have hDL : badAdj isDigitCh isAsciiAlpha (preprocess s) = false := by
    rw [preprocess, parenProd, letterDigit, digitLetter]
    refine badAdj_collapse_preserve (by decide) (by decide) ?_
    refine badAdj_insStar_preserve (by decide) (by decide) ?_
    refine badAdj_insStar_preserve (by decide) (by decide) ?_
    exact insStar_clears digit_alpha_disjoint (by decide) (by decide) _
  have hLD : badAdj isAsciiAlpha isDigitCh (preprocess s) = false := by
    rw [preprocess, parenProd, letterDigit]
    refine badAdj_collapse_preserve (by decide) (by decide) ?_
    refine badAdj_insStar_preserve (by decide) (by decide) ?_
    exact insStar_clears alpha_digit_disjoint (by decide) (by decide) _
  have hPP : badAdj (fun c => decide (c = ')')) (fun c => decide (c = '(')) (preprocess s)
      = false := by
    rw [preprocess, parenProd]
    refine badAdj_collapse_preserve (by decide) (by decide) ?_
    exact insStar_clears paren_disjoint (by decide) (by decide) _
  have hstrip : pyStrip (preprocess s) = preprocess s := by
    rw [preprocess]
    exact pyStrip_collapse _
  conv_lhs => rw [preprocess]
  rw [hstrip, List.filter_eq_self.2 hkeep, hcmd, replPow_id hpow, replDiv_id hdiv,
    replTimes_id htimes, replPi_id hpi, replInf_id hinf, sqrtRepl_id hsqrt,
    digitLetter, insStar_id hDL, letterDigit, insStar_id hLD, parenProd,
    insStar_id hPP]
  exact collapseWs_idem _

/-- C3 witness: a concrete input satisfying the side conditions. -/
theorem claim_C3_witness :
    preprocess (preprocess "2x + 3÷y^2".data) = preprocess "2x + 3÷y^2".data :=
  claim_C3 "2x + 3÷y^2".data (by decide) (by decide)

/-- C3 counterexample: the normalizer strips only one leading command
word per pass, so `"solve solve x"` normalises to `"solve x"`, which
normalises again to `"x"` — idempotence fails as stated. -/
theorem claim_C3_cex :
    preprocess (preprocess "solve solve x".data) ≠ preprocess "solve solve x".data := by
  decide

/-- C9 witness: a concrete boat problem with nonzero times. -/
theorem claim_C9_witness :
    ∃ (d t1 t2 : ℚ) (rest : List ℚ),
      ([100, 5, 4] : List ℚ) = d :: t1 :: t2 :: rest ∧ t1 ≠ 0 ∧ t2 ≠ 0 ∧
        (MotionSystem.boat 20 25 = .boat (d / t1) (d / t2) ∨
          MotionSystem.boat 20 25 = .plane (d / t1) (d / t2)) :=
  claim_C9 "a boat travels 100 miles downstream in 5 hours and upstream in 4 hours".data
    [100, 5, 4] (.boat 20 25) (by decide)

end MathSolver
